import Mathlib

/-!
Verification development for the `bub` repository core: the tape compiler
(`src/bub/tape/context.py`) and the tool registry (`src/bub/tools/registry.py`).

The Python payloads are JSON-like structured values; we embed them as the
inductive type `Val`.  Python `dict`s (string keys, insertion order, unique
keys) are embedded as association lists `List (String × Val)` with
first-match lookup and in-place update.  The `json` standard-library calls
used by the source (`json.dumps(..., ensure_ascii=False)` for serialization
and `json.loads` for validation — the parsed value is discarded by the
source, so the embedding of `loads` is a syntax checker) are embedded
faithfully below.  Floating-point numbers are outside the embedding: `Val`
covers the JSON universe with integer numbers.
-/

/-- JSON-like value universe for tape payloads and tool-call data.
Mirrors the values Python's `json` module round-trips, minus floats. -/
inductive Val where
  | vnull : Val
  | vbool : Bool → Val
  | vint : Int → Val
  | vstr : String → Val
  | vlist : List Val → Val
  | vdict : List (String × Val) → Val
deriving Repr

/-- Python `dict` with string keys, embedded as an ordered association list. -/
abbrev PyDict := List (String × Val)

/-- Python `d.get(k)`: first binding of `k`, `none` when absent. -/
def assoc_get {α : Type} (d : List (String × α)) (k : String) : Option α :=
  match d with
  | [] => none
  | (k', v) :: rest => if k' = k then some v else assoc_get rest k

/-- Python `d[k] = v`: replace the first binding of `k` in place, or append. -/
def assoc_set {α : Type} (d : List (String × α)) (k : String) (v : α) : List (String × α) :=
  match d with
  | [] => [(k, v)]
  | (k', v') :: rest => if k' = k then (k, v) :: rest else (k', v') :: assoc_set rest k v

/-- The character `{` (written via its code point). -/
def lbrace : Char := Char.ofNat 123

/-- The character `}` (written via its code point). -/
def rbrace : Char := Char.ofNat 125

/-! ### Embedding of `json.dumps(value, ensure_ascii=False)`

Default separators (indent is None): item separator `", "`, key separator
`": "`.  With `ensure_ascii=False` only `"`, `\` and control characters
below 0x20 are escaped; control characters without a short escape use
`\u00XX`. -/

/-- Decimal digit character for `n < 10`. -/
def digit_char (n : Nat) : Char := Char.ofNat (48 + n)

/-- Lowercase hexadecimal digit character for `n < 16`. -/
def hex_digit_char (n : Nat) : Char :=
  if n < 10 then Char.ofNat (48 + n) else Char.ofNat (87 + n)

/-- Decimal digits of a natural number, most significant first. -/
def nat_digits (n : Nat) : List Char :=
  if _h : n < 10 then [digit_char n]
  else nat_digits (n / 10) ++ [digit_char (n % 10)]
decreasing_by exact Nat.div_lt_self (by omega) (by omega)

/-- Python `repr` of an `int` (the form `json.dumps` emits for integers). -/
def int_repr (n : Int) : List Char :=
  if n < 0 then '-' :: nat_digits n.natAbs else nat_digits n.toNat

/-- Per-character escaping of `json.dumps(..., ensure_ascii=False)`. -/
def escape_char (c : Char) : List Char :=
  if c = '"' then ['\\', '"']
  else if c = '\\' then ['\\', '\\']
  else if c = '\n' then ['\\', 'n']
  else if c = '\t' then ['\\', 't']
  else if c = '\r' then ['\\', 'r']
  else if c.toNat = 8 then ['\\', 'b']
  else if c.toNat = 12 then ['\\', 'f']
  else if c.toNat < 32 then
    ['\\', 'u', '0', '0', hex_digit_char (c.toNat / 16), hex_digit_char (c.toNat % 16)]
  else [c]

/-- Escaped body of a JSON string literal. -/
def escape_string (s : List Char) : List Char :=
  match s with
  | [] => []
  | c :: cs => escape_char c ++ escape_string cs

mutual

/-- Characters of `json.dumps(v, ensure_ascii=False)`. -/
def dumps_val : Val → List Char
  | .vnull => "null".data
  | .vbool true => "true".data
  | .vbool false => "false".data
  | .vint n => int_repr n
  | .vstr s => '"' :: (escape_string s.data ++ ['"'])
  | .vlist [] => ['[', ']']
  | .vlist (x :: xs) => '[' :: (dumps_val x ++ dumps_list xs ++ [']'])
  | .vdict [] => [lbrace, rbrace]
  | .vdict (kv :: kvs) => lbrace :: (dumps_kv kv ++ dumps_dict kvs ++ [rbrace])

/-- Remaining array items, each preceded by the `", "` item separator. -/
def dumps_list : List Val → List Char
  | [] => []
  | x :: xs => ',' :: ' ' :: (dumps_val x ++ dumps_list xs)

/-- One serialized `"key": value` member. -/
def dumps_kv : String × Val → List Char
  | (k, v) => '"' :: (escape_string k.data ++ '"' :: ':' :: ' ' :: dumps_val v)

/-- Remaining object members, each preceded by the `", "` item separator. -/
def dumps_dict : List (String × Val) → List Char
  | [] => []
  | kv :: kvs => ',' :: ' ' :: (dumps_kv kv ++ dumps_dict kvs)

end

/-- `json.dumps(v, ensure_ascii=False)` as a Lean string. -/
def json_dumps (v : Val) : String := String.mk (dumps_val v)

/-! ### Embedding of `json.loads` as a syntax checker

The source calls `json.loads(args)` only to test whether `args` is
well-formed JSON (the parsed value is discarded), so the embedding is a
recognizer: it consumes one JSON value from the input and returns the
remaining characters on success.  It follows CPython's pure-Python scanner:
strict strings (raw control characters rejected), the number grammar
`-?(0|[1-9][0-9]*)(\.[0-9]+)?([eE][+-]?[0-9]+)?`, the literals `null`,
`true`, `false` and the non-standard constants `NaN`, `Infinity`,
`-Infinity`, arrays and objects with `", "`-agnostic whitespace skipping,
and full-input consumption at top level (otherwise "Extra data"). -/

/-- JSON whitespace (CPython: space, tab, newline, carriage return). -/
def is_json_ws (c : Char) : Bool :=
  c = ' ' || c = '\t' || c = '\n' || c = '\r'

/-- Skip leading JSON whitespace. -/
def skip_ws : List Char → List Char
  | [] => []
  | c :: cs => if is_json_ws c then skip_ws cs else c :: cs

/-- Hexadecimal digit recognizer for `\uXXXX` escapes. -/
def is_hex_digit (c : Char) : Bool :=
  ('0' ≤ c && c ≤ '9') || ('a' ≤ c && c ≤ 'f') || ('A' ≤ c && c ≤ 'F')

/-- Single-character escapes accepted after a backslash. -/
def is_simple_escape (c : Char) : Bool :=
  c = '"' || c = '\\' || c = '/' || c = 'b' || c = 'f' || c = 'n' || c = 'r' || c = 't'

/-- Recognize a JSON string body after the opening quote; returns the
input remaining after the closing quote.  Strict mode: raw control
characters below 0x20 are rejected. -/
def parse_string_body : List Char → Option (List Char)
  | [] => none
  | '\\' :: 'u' :: h1 :: h2 :: h3 :: h4 :: rest =>
    if is_hex_digit h1 && is_hex_digit h2 && is_hex_digit h3 && is_hex_digit h4 then
      parse_string_body rest
    else none
  | '\\' :: e :: rest => if is_simple_escape e then parse_string_body rest else none
  | c :: rest =>
    if c = '"' then some rest
    else if c.toNat < 32 then none
    else parse_string_body rest

/-- Skip a (possibly empty) run of decimal digits. -/
def skip_digits : List Char → List Char
  | [] => []
  | c :: cs => if c.isDigit then skip_digits cs else c :: cs

/-- Require at least one decimal digit, then skip the rest of the run. -/
def parse_digits : List Char → Option (List Char)
  | [] => none
  | c :: cs => if c.isDigit then some (skip_digits cs) else none

/-- Integer part of the JSON number grammar: `0` or `[1-9][0-9]*`. -/
def parse_int_digits : List Char → Option (List Char)
  | [] => none
  | c :: cs =>
    if c = '0' then some cs
    else if c.isDigit then some (skip_digits cs) else none

/-- Optional fraction part `\.[0-9]+`; on mismatch the regex backtracks,
leaving the input unconsumed. -/
def parse_frac (cs : List Char) : List Char :=
  match cs with
  | [] => []
  | c :: rest =>
    if c = '.' then
      match parse_digits rest with
      | some r => r
      | none => c :: rest
    else c :: rest

/-- Optional exponent part `[eE][+-]?[0-9]+`; on mismatch the regex
backtracks, leaving the input unconsumed. -/
def parse_exp (cs : List Char) : List Char :=
  match cs with
  | [] => []
  | e :: rest =>
    if e = 'e' || e = 'E' then
      match rest with
      | [] => cs
      | s :: rest' =>
        if s = '+' || s = '-' then
          match parse_digits rest' with
          | some r => r
          | none => cs
        else
          match parse_digits rest with
          | some r => r
          | none => cs
    else cs

/-- CPython's `NUMBER_RE` match at the head of the input. -/
def parse_number (cs : List Char) : Option (List Char) :=
  match cs with
  | [] => none
  | c :: rest =>
    if c = '-' then (parse_int_digits rest).map (fun r => parse_exp (parse_frac r))
    else (parse_int_digits (c :: rest)).map (fun r => parse_exp (parse_frac r))

/-- Match a literal character sequence at the head of the input. -/
def drop_lit : List Char → List Char → Option (List Char)
  | [], cs => some cs
  | _ :: _, [] => none
  | p :: ps, c :: cs => if c = p then drop_lit ps cs else none

/-- The scalar alternatives of CPython's `scan_once`, tried in source
order once the input is known not to start a string, object or array:
`null`, `true`, `false`, the number regex, then the non-standard
constants. -/
def parse_scalar (cs : List Char) : Option (List Char) :=
  match drop_lit "null".data cs with
  | some r => some r
  | none =>
    match drop_lit "true".data cs with
    | some r => some r
    | none =>
      match drop_lit "false".data cs with
      | some r => some r
      | none =>
        match parse_number cs with
        | some r => some r
        | none =>
          match drop_lit "NaN".data cs with
          | some r => some r
          | none =>
            match drop_lit "Infinity".data cs with
            | some r => some r
            | none => drop_lit "-Infinity".data cs

mutual

/-- Recognize one JSON value (CPython `scan_once`). `fuel` bounds the
recursion depth; `json_valid` supplies more fuel than any input needs. -/
def parse_value : Nat → List Char → Option (List Char)
  | 0, _ => none
  | Nat.succ fuel, cs =>
    match cs with
    | [] => none
    | c :: rest =>
      if c = '"' then parse_string_body rest
      else if c = lbrace then
        match skip_ws rest with
        | [] => none
        | d :: rest1 =>
          if d = rbrace then some rest1 else parse_members fuel (d :: rest1)
      else if c = '[' then
        match skip_ws rest with
        | [] => none
        | d :: rest1 =>
          if d = ']' then some rest1 else parse_elements fuel (d :: rest1)
      else parse_scalar cs

/-- Recognize the members of an object after `{` and whitespace, given the
first member starts here; consumes through the closing `}`. -/
def parse_members : Nat → List Char → Option (List Char)
  | 0, _ => none
  | Nat.succ fuel, cs =>
    match cs with
    | '"' :: rest =>
      match parse_string_body rest with
      | none => none
      | some afterKey =>
        match skip_ws afterKey with
        | ':' :: afterColon =>
          match parse_value fuel (skip_ws afterColon) with
          | none => none
          | some afterVal =>
            match skip_ws afterVal with
            | [] => none
            | d :: rest2 =>
              if d = rbrace then some rest2
              else if d = ',' then parse_members fuel (skip_ws rest2)
              else none
        | _ => none
    | _ => none

/-- Recognize the elements of an array after `[` and whitespace, given the
first element starts here; consumes through the closing `]`. -/
def parse_elements : Nat → List Char → Option (List Char)
  | 0, _ => none
  | Nat.succ fuel, cs =>
    match parse_value fuel cs with
    | none => none
    | some afterVal =>
      match skip_ws afterVal with
      | [] => none
      | d :: rest2 =>
        if d = ']' then some rest2
        else if d = ',' then parse_elements fuel (skip_ws rest2)
        else none

end

/-- `json.loads(s)` succeeds: one JSON value surrounded only by whitespace. -/
def json_valid (s : String) : Bool :=
  match parse_value (s.data.length + 1) (skip_ws s.data) with
  | some rest => (skip_ws rest).isEmpty
  | none => false

/-- `json.loads(s)` succeeds and the parsed value is a JSON object
(the first significant character is `{`). -/
def json_valid_object (s : String) : Bool :=
  json_valid s &&
    match skip_ws s.data with
    | c :: _ => c = lbrace
    | [] => false

/-! ## Tape compiler (`src/bub/tape/context.py`)

A tape entry carries a `kind` tag and a structured payload.  Per the data
model, the payload of a persisted entry is a mapping from string to value,
so it is embedded as `PyDict`; with that boundary type the
`isinstance(payload, dict)` guard of `_append_message_entry` always
passes, and `entry.payload.get(...)` is total. -/

/-- One event of the conversation tape. -/
structure TapeEntry where
  kind : String
  payload : PyDict
deriving Repr

/-- `_render_tool_result`: strings pass through, anything else is
serialized to compact JSON.  The `except TypeError` fallback of the source
is unreachable on `Val`, whose inhabitants are all JSON-serializable. -/
def render_tool_result (result : Val) : String :=
  match result with
  | .vstr s => s
  | v => json_dumps v

/-- `_sanitize_tool_call`, restricted to its effect on the nested
`function` mapping: dict-valued `arguments` are re-encoded to a JSON
string; string arguments failing `json.loads` are replaced by `"{}"`, as
is an absent or `None` value; every other shape is left as-is. -/
def sanitize_function (f : PyDict) : PyDict :=
  match assoc_get f "arguments" with
  | some (.vdict args) => assoc_set f "arguments" (.vstr (json_dumps (.vdict args)))
  | some (.vstr s) => if json_valid s then f else assoc_set f "arguments" (.vstr "\x7b\x7d")
  | some .vnull => assoc_set f "arguments" (.vstr "\x7b\x7d")
  | none => assoc_set f "arguments" (.vstr "\x7b\x7d")
  | some _ => f

/-- `_sanitize_tool_call` on one call mapping: if `call.get("function")`
is a mapping, its `arguments` entry is sanitized; otherwise the call is
returned unchanged. -/
def sanitize_tool_call (call : PyDict) : PyDict :=
  match assoc_get call "function" with
  | some (.vdict f) => assoc_set call "function" (.vdict (sanitize_function f))
  | _ => call

/-- `_normalize_tool_calls`: a non-list (or absent) `calls` value yields
`[]`; from a list, each mapping item is sanitized and collected, other
items are dropped. -/
def normalize_tool_calls (value : Option Val) : List PyDict :=
  match value with
  | some (.vlist items) =>
    items.filterMap (fun item =>
      match item with
      | .vdict d => some (sanitize_tool_call d)
      | _ => none)
  | _ => []

/-- The base message of `_build_tool_result_message` (line 68 of the
source): `role: tool` with the rendered content. -/
def btr_base (result : Val) : PyDict :=
  [("role", .vstr "tool"), ("content", .vstr (render_tool_result result))]

/-- Lines 73-75 of the source: attach `tool_call_id` from the call's `id`
when that is a non-empty string. -/
def btr_with_id (message call : PyDict) : PyDict :=
  match assoc_get call "id" with
  | some (.vstr call_id) =>
    if call_id ≠ "" then assoc_set message "tool_call_id" (.vstr call_id) else message
  | _ => message

/-- Lines 77-81 of the source: attach `name` from the call's
`function.name` when `function` is a mapping and the name is a non-empty
string. -/
def btr_name_of (message f : PyDict) : PyDict :=
  match assoc_get f "name" with
  | some (.vstr n) => if n ≠ "" then assoc_set message "name" (.vstr n) else message
  | _ => message

def btr_with_name (message call : PyDict) : PyDict :=
  match assoc_get call "function" with
  | some (.vdict f) => btr_name_of message f
  | _ => message

/-- `_build_tool_result_message`: a `role: tool` message with rendered
content; when `index` is within the pending buffer, `tool_call_id` is
attached from the call's `id` if it is a non-empty string, and `name`
from the call's `function.name` if that is a non-empty string
(`index >= len(pending_calls)` returns the base message unchanged). -/
def build_tool_result_message (result : Val) (pending_calls : List PyDict) (index : Nat) :
    PyDict :=
  match pending_calls[index]? with
  | none => btr_base result
  | some call => btr_with_name (btr_with_id (btr_base result) call) call

/-- The loop body of `_append_tool_result_entry`: one message per result,
enumerated from `index`. -/
def append_results (pending_calls : List PyDict) : Nat → List Val → List PyDict
  | _, [] => []
  | index, r :: rs =>
    build_tool_result_message r pending_calls index :: append_results pending_calls (index + 1) rs

/-- `_append_tool_result_entry`: when `payload.results` is a list, append
one tool message per result; otherwise leave the messages untouched. -/
def append_tool_result_entry (messages : List PyDict) (pending_calls : List PyDict)
    (payload : PyDict) : List PyDict :=
  match assoc_get payload "results" with
  | some (.vlist results) => messages ++ append_results pending_calls 0 results
  | _ => messages

/-- `_append_message_entry`: the payload mapping is appended as a message
(`dict(payload)` is a shallow copy, the same mapping value). -/
def append_message_entry (messages : List PyDict) (payload : PyDict) : List PyDict :=
  messages ++ [payload]

/-- `_append_tool_call_entry`: normalize `payload.calls`; if non-empty,
append one assistant message carrying the sanitized calls; return the
normalized calls as the new pending buffer. -/
def append_tool_call_entry (messages : List PyDict) (payload : PyDict) :
    List PyDict × List PyDict :=
  let calls := normalize_tool_calls (assoc_get payload "calls")
  (if calls.isEmpty then messages
   else messages ++
     [[("role", .vstr "assistant"), ("content", .vstr ""),
       ("tool_calls", .vlist (calls.map Val.vdict))]],
   calls)

/-- One iteration of the entry loop of `_select_messages`, acting on the
accumulator and the pending-calls buffer.  Note that the `tool_result`
arm resets the pending buffer unconditionally (line 33 of the source),
whether or not the entry's `results` value was a list. -/
def select_step (state : List PyDict × List PyDict) (entry : TapeEntry) :
    List PyDict × List PyDict :=
  if entry.kind = "message" then (append_message_entry state.1 entry.payload, state.2)
  else if entry.kind = "tool_call" then append_tool_call_entry state.1 entry.payload
  else if entry.kind = "tool_result" then
    (append_tool_result_entry state.1 state.2 entry.payload, [])
  else state

/-- `_select_messages`: fold the entries, starting from empty accumulator
and empty pending buffer, and return the accumulated messages. -/
def select_messages (entries : List TapeEntry) : List PyDict :=
  (entries.foldl select_step ([], [])).1

/-- Value-level effect of sanitization on one item of a `calls` list: the
`dict(item)` copy in `_normalize_tool_calls` is shallow, so the nested
`function` mapping inside the copy is the same object as in the tape
entry; `_sanitize_tool_call` assigns `function["arguments"]` through that
shared reference, which updates the entry's own item in place. -/
def item_after_sanitize (item : Val) : Val :=
  match item with
  | .vdict d => .vdict (sanitize_tool_call d)
  | other => other

/-- State of a tape entry after `_select_messages` has run over it,
modelling the in-place mutations performed through shared references:
only `tool_call` entries with a list-valued `calls` payload are affected
(each mapping item's nested `function.arguments` is rewritten by
sanitization); all other entries are only read. -/
def entry_after_compile (e : TapeEntry) : TapeEntry :=
  if e.kind = "tool_call" then
    match assoc_get e.payload "calls" with
    | some (.vlist items) =>
      { e with payload := assoc_set e.payload "calls" (.vlist (items.map item_after_sanitize)) }
    | _ => e
  else e

/-! ## Tool registry (`src/bub/tools/registry.py`)

The executable handle produced by `tool_from_model` / `Tool.from_callable`
is kept abstract except for the fields the registry itself reads (`name`,
`description`, `parameters` is not inspected by any claim, `context`).
The asynchronous instrumentation wrapper is modelled by its data flow
(`handler_data_flow`): which keyword arguments it logs and which it
forwards to the wrapped function. -/

/-- The registry-visible part of a `republic.Tool` handle. -/
structure Tool where
  name : String
  description : String
  context : Bool
deriving Repr

/-- `ToolDescriptor`: tool metadata and runtime handle. -/
structure ToolDescriptor where
  name : String
  short_description : String
  detail : String
  tool : Tool
  source : String
deriving Repr

/-- `ToolRegistry` state: the name-keyed descriptor mapping and the
optional allow-set fixed at construction. -/
structure ToolRegistry where
  tools : List (String × ToolDescriptor)
  allowed_tools : Option (List String)

/-- Python `str.casefold()`, which for the ASCII tool names of this
repository coincides with lowercasing each character. -/
def casefold (s : String) : String := String.mk (s.data.map Char.toLower)

/-- Python `str.replace` with the single-character pattern `"."`, which
substitutes the replacement for every occurrence, character by
character. -/
def replace_char (pat rep : Char) : List Char → List Char
  | [] => []
  | c :: cs => (if c = pat then rep else c) :: replace_char pat rep cs

/-- `ToolRegistry.to_model_name`: `name.replace(".", "_")`. -/
def to_model_name (name : String) : String :=
  String.mk (replace_char '.' '_' name.data)

/-- The allow-set guard of `register` (lines 67-72): skip when an
allow-set is configured and neither `name.casefold()` nor
`to_model_name(name).casefold()` is an element of it. -/
def allow_skip (allowed_tools : Option (List String)) (name : String) : Bool :=
  match allowed_tools with
  | none => false
  | some allowed =>
    !(decide (casefold name ∈ allowed)) && !(decide (casefold (to_model_name name) ∈ allowed))

/-- `ToolRegistry.register` applied to a function: either the
not-registered sentinel (`none`) with the registry unchanged, or a new
descriptor stored under `name` (last write wins).  `detail` stands for
the already-resolved `detail or func.__doc__ or ""` string. -/
def register_tool (r : ToolRegistry) (name short_description detail : String)
    (context : Bool) (source : String) : ToolRegistry × Option ToolDescriptor :=
  if allow_skip r.allowed_tools name then (r, none)
  else
    let desc : ToolDescriptor :=
      { name := name, short_description := short_description, detail := detail,
        tool := { name := name, description := short_description, context := context },
        source := source }
    ({ r with tools := assoc_set r.tools name desc }, some desc)

/-- `ToolRegistry.get`. -/
def registry_get (r : ToolRegistry) (name : String) : Option ToolDescriptor :=
  assoc_get r.tools name

/-- `ToolRegistry.descriptors`: the stored descriptors sorted by name
(`sorted` is a stable sort on the `name` key). -/
def descriptors (r : ToolRegistry) : List ToolDescriptor :=
  List.insertionSort (fun a b => a.name ≤ b.name) (r.tools.map Prod.snd)

/-- The descriptor loop of `model_tools`, carrying the `seen_names` set;
a duplicate model name raises `ValueError` before any list is returned. -/
def model_tools_go (seen : List String) : List ToolDescriptor → Except String (List Tool)
  | [] => .ok []
  | d :: rest =>
    let model_name := to_model_name d.name
    if model_name ∈ seen then
      .error ("Duplicate model tool name after conversion: " ++ model_name)
    else
      match model_tools_go (model_name :: seen) rest with
      | .ok tools =>
        .ok ({ name := model_name, description := d.tool.description,
               context := d.tool.context } :: tools)
      | .error e => .error e

/-- `ToolRegistry.model_tools`: every descriptor re-exposed under its
model name, or a fatal configuration error on a name collision. -/
def model_tools (r : ToolRegistry) : Except String (List Tool) :=
  model_tools_go [] (descriptors r)

/-- Python `dict.update`: fold the source bindings into the target. -/
def dict_update (d : PyDict) (src : PyDict) : PyDict :=
  src.foldl (fun acc kv => assoc_set acc kv.1 kv.2) d

/-- The observable data flow of one invocation of the instrumented
`handler` (lines 74-94): the context argument it extracts, the
keyword-argument view it passes to `_log_tool_call`, and the keyword
arguments it forwards to the wrapped function via `func(*args, **kwargs)`.
`model_dump` is `args[0].model_dump()` when the first positional argument
is a pydantic model, else `none`. -/
structure HandlerCall where
  context_arg : Option Val
  logged_kwargs : PyDict
  forwarded_kwargs : PyDict
deriving Repr

/-- Embed the handler body: `context_arg = kwargs.get("context") if context
else None`; `call_kwargs` drops the `"context"` key and merges the model
dump, and is used only for logging; the call itself is
`func(*args, **kwargs)` on the unmodified keyword arguments. -/
def handler_data_flow (requires_context : Bool) (model_dump : Option PyDict)
    (kwargs : PyDict) : HandlerCall :=
  let context_arg := if requires_context then assoc_get kwargs "context" else none
  let call_kwargs := kwargs.filter (fun kv => kv.1 != "context")
  let call_kwargs :=
    match model_dump with
    | some d => dict_update call_kwargs d
    | none => call_kwargs
  { context_arg := context_arg, logged_kwargs := call_kwargs, forwarded_kwargs := kwargs }

/-- `ToolRegistry.execute`, projected onto the caller's keyword-argument
dictionary: an unknown name raises `KeyError` (the dictionary is not
touched); otherwise, when the descriptor's tool declares it requires
context, `kwargs["context"] = context` is assigned into the caller's
dictionary itself before dispatch, and the dictionary is left unchanged
otherwise.  The returned dictionary is the caller-visible state after
the lookup-and-dispatch step. -/
def execute_kwargs_after (r : ToolRegistry) (name : String) (kwargs : PyDict)
    (context : Val) : Except String PyDict :=
  match registry_get r name with
  | none => .error name
  | some descriptor =>
    .ok (if descriptor.tool.context then assoc_set kwargs "context" context else kwargs)

/-! ## Dictionary lemmas -/

theorem assoc_get_set_self {α : Type} (d : List (String × α)) (k : String) (v : α) :
    assoc_get (assoc_set d k v) k = some v := by
  induction d with
  | nil => simp [assoc_set, assoc_get]
  | cons kv rest ih =>
    obtain ⟨k', v'⟩ := kv
    by_cases h : k' = k
    · subst h; simp [assoc_set, assoc_get]
    · simp [assoc_set, assoc_get, h, ih]

theorem assoc_set_set {α : Type} (d : List (String × α)) (k : String) (v w : α) :
    assoc_set (assoc_set d k v) k w = assoc_set d k w := by
  induction d with
  | nil => simp [assoc_set]
  | cons kv rest ih =>
    obtain ⟨k', v'⟩ := kv
    by_cases h : k' = k
    · subst h; simp [assoc_set]
    · simp [assoc_set, h, ih]

/-! ## Character-class lemmas -/

/-- A character cannot be a digit and equal to a non-digit character. -/
theorem digit_ne {c : Char} (h : c.isDigit = true) (d : Char) (hd : d.isDigit = false) :
    c ≠ d := by
  intro he
  rw [he, hd] at h
  exact Bool.noConfusion h

theorem ws_not_digit {c : Char} (h : is_json_ws c = true) : c.isDigit = false := by
  simp only [is_json_ws, Bool.or_eq_true, decide_eq_true_eq] at h
  rcases h with ((h | h) | h) | h <;> subst h <;> decide

theorem digit_not_ws {c : Char} (h : c.isDigit = true) : is_json_ws c = false := by
  cases hw : is_json_ws c with
  | false => rfl
  | true => rw [ws_not_digit hw] at h; exact Bool.noConfusion h

theorem skip_ws_cons {c : Char} (cs : List Char) (h : is_json_ws c = false) :
    skip_ws (c :: cs) = c :: cs := by
  simp [skip_ws, h]

theorem skip_ws_ws {c : Char} (cs : List Char) (h : is_json_ws c = true) :
    skip_ws (c :: cs) = skip_ws cs := by
  simp [skip_ws, h]

/-- Boundary condition after a serialized number: the remaining input does
not begin with a character the number regex would also consume. -/
def num_boundary : List Char → Bool
  | [] => true
  | c :: _ => !c.isDigit && !(c = '.') && !(c = 'e') && !(c = 'E')

theorem num_boundary_cons {c : Char} {t : List Char} (h : num_boundary (c :: t) = true) :
    c.isDigit = false ∧ c ≠ '.' ∧ c ≠ 'e' ∧ c ≠ 'E' := by
  simp only [num_boundary, Bool.and_eq_true, Bool.not_eq_true',
    decide_eq_false_iff_not] at h
  exact ⟨h.1.1.1, h.1.1.2, h.1.2, h.2⟩

theorem skip_digits_append (ds rest : List Char) (hds : ∀ c ∈ ds, c.isDigit = true)
    (hrest : num_boundary rest = true) : skip_digits (ds ++ rest) = rest := by
  induction ds with
  | nil =>
    simp only [List.nil_append]
    cases rest with
    | nil => rfl
    | cons c t =>
      simp [skip_digits, (num_boundary_cons hrest).1]
  | cons d ds ih =>
    have hd : d.isDigit = true := hds d (List.mem_cons_self d ds)
    simp only [List.cons_append, skip_digits, hd, if_true]
    exact ih (fun c hc => hds c (List.mem_cons_of_mem d hc))

/-! ## Decimal digits of naturals -/

theorem digit_char_isDigit : ∀ m, m < 10 → (digit_char m).isDigit = true := by decide

theorem digit_char_ne_zero : ∀ m, m < 10 → 0 < m → digit_char m ≠ '0' := by decide

theorem nat_digits_spec (n : Nat) :
    ∃ c t, nat_digits n = c :: t ∧ c.isDigit = true ∧ (∀ x ∈ t, x.isDigit = true) ∧
      (0 < n → c ≠ '0') := by
  induction n using Nat.strong_induction_on with
  | _ n ih =>
    unfold nat_digits
    by_cases h : n < 10
    · rw [dif_pos h]
      exact ⟨digit_char n, [], rfl, digit_char_isDigit n h, by simp,
        fun hn => digit_char_ne_zero n h hn⟩
    · rw [dif_neg h]
      obtain ⟨c, t, hct, hcd, htd, hc0⟩ := ih (n / 10) (Nat.div_lt_self (by omega) (by omega))
      refine ⟨c, t ++ [digit_char (n % 10)], by rw [hct]; simp, hcd, ?_,
        fun _ => hc0 (by omega)⟩
      intro x hx
      rcases List.mem_append.mp hx with h1 | h1
      · exact htd x h1
      · simp only [List.mem_singleton] at h1
        subst h1
        exact digit_char_isDigit _ (Nat.mod_lt _ (by omega))

/-! ## Number-grammar lemmas -/

theorem parse_frac_boundary (cs : List Char) (h : num_boundary cs = true) :
    parse_frac cs = cs := by
  cases cs with
  | nil => rfl
  | cons c t =>
    simp [parse_frac, (num_boundary_cons h).2.1]

theorem parse_exp_boundary (cs : List Char) (h : num_boundary cs = true) :
    parse_exp cs = cs := by
  cases cs with
  | nil => rfl
  | cons c t =>
    obtain ⟨-, -, he, hE⟩ := num_boundary_cons h
    simp [parse_exp, he, hE]

theorem parse_int_digits_nat (n : Nat) (rest : List Char) (hrest : num_boundary rest = true) :
    parse_int_digits (nat_digits n ++ rest) = some rest := by
  by_cases hn : n = 0
  · subst hn
    have h0 : nat_digits 0 = ['0'] := by unfold nat_digits; rfl
    rw [h0]
    simp [parse_int_digits]
  · obtain ⟨c, t, hct, hcd, htd, hc0⟩ := nat_digits_spec n
    have hc0' : c ≠ '0' := hc0 (Nat.pos_of_ne_zero hn)
    rw [hct]
    simp only [List.cons_append, parse_int_digits, if_neg hc0', hcd, if_true]
    rw [skip_digits_append t rest htd hrest]

theorem parse_number_int (n : Int) (rest : List Char) (hrest : num_boundary rest = true) :
    parse_number (int_repr n ++ rest) = some rest := by
  unfold int_repr
  by_cases hn : n < 0
  · rw [if_pos hn]
    simp only [List.cons_append, parse_number, if_pos]
    rw [parse_int_digits_nat n.natAbs rest hrest]
    simp [parse_frac_boundary rest hrest, parse_exp_boundary rest hrest]
  · rw [if_neg hn]
    obtain ⟨c, t, hct, hcd, -, -⟩ := nat_digits_spec n.toNat
    have hcm : c ≠ '-' := digit_ne hcd '-' (by decide)
    rw [hct]
    simp only [List.cons_append, parse_number, if_neg hcm]
    rw [← List.cons_append, ← hct, parse_int_digits_nat n.toNat rest hrest]
    simp [parse_frac_boundary rest hrest, parse_exp_boundary rest hrest]

/-! ## String-literal lemmas -/

theorem hex_of_lt_32 : ∀ t, t < 32 →
    is_hex_digit (hex_digit_char (t / 16)) = true ∧
      is_hex_digit (hex_digit_char (t % 16)) = true := by decide

/-- The default arm of `parse_string_body` for a head that is not a
backslash. -/
theorem parse_string_body_other {c : Char} (hb : c ≠ '\\') (X : List Char) :
    parse_string_body (c :: X) =
      (if c = '"' then some X else if c.toNat < 32 then none else parse_string_body X) := by
  rw [parse_string_body.eq_def]
  split
  · rename_i heq
    exact absurd heq (by simp)
  · rename_i heq
    injection heq with hc _
    exact absurd hc hb
  · rename_i heq
    injection heq with hc _
    exact absurd hc hb
  · rename_i heq
    injection heq with hc hX
    rw [hc, hX]

theorem parse_string_body_escape (s rest : List Char) :
    parse_string_body (escape_string s ++ '"' :: rest) = some rest := by
  induction s with
  | nil => exact rfl
  | cons c cs ih =>
    simp only [escape_string, List.append_assoc]
    by_cases h1 : c = '"'
    · subst h1; exact ih
    by_cases h2 : c = '\\'
    · subst h2; exact ih
    by_cases h3 : c = '\n'
    · subst h3; exact ih
    by_cases h4 : c = '\t'
    · subst h4; exact ih
    by_cases h5 : c = '\r'
    · subst h5; exact ih
    by_cases h6 : c.toNat = 8
    · simp only [escape_char, if_neg h1, if_neg h2, if_neg h3, if_neg h4, if_neg h5,
        if_pos h6, List.cons_append, List.nil_append]
      exact ih
    by_cases h7 : c.toNat = 12
    · simp only [escape_char, if_neg h1, if_neg h2, if_neg h3, if_neg h4, if_neg h5,
        if_neg h6, if_pos h7, List.cons_append, List.nil_append]
      exact ih
    by_cases h8 : c.toNat < 32
    · simp only [escape_char, if_neg h1, if_neg h2, if_neg h3, if_neg h4, if_neg h5,
        if_neg h6, if_neg h7, if_pos h8, List.cons_append, List.nil_append]
      have hx := hex_of_lt_32 c.toNat h8
      have hu : parse_string_body ('\\' :: 'u' :: '0' :: '0' ::
          hex_digit_char (c.toNat / 16) :: hex_digit_char (c.toNat % 16) ::
          (escape_string cs ++ '"' :: rest)) =
          (if is_hex_digit '0' && is_hex_digit '0' &&
              is_hex_digit (hex_digit_char (c.toNat / 16)) &&
              is_hex_digit (hex_digit_char (c.toNat % 16)) then
            parse_string_body (escape_string cs ++ '"' :: rest)
          else none) := rfl
      rw [hu, hx.1, hx.2]
      simpa [show is_hex_digit '0' = true from by decide] using ih
    · simp only [escape_char, if_neg h1, if_neg h2, if_neg h3, if_neg h4, if_neg h5,
        if_neg h6, if_neg h7, if_neg h8, List.cons_append, List.nil_append]
      rw [parse_string_body_other h2, if_neg h1, if_neg h8]
      exact ih

/-! ## Fuel accounting for the recognizer -/

mutual

/-- Recursion depth `parse_value` needs on the output of `dumps_val`. -/
def fuel_val : Val → Nat
  | .vnull => 1
  | .vbool _ => 1
  | .vint _ => 1
  | .vstr _ => 1
  | .vlist [] => 1
  | .vlist (x :: xs) => 2 + fuel_val x + fuel_elems xs
  | .vdict [] => 1
  | .vdict (kv :: kvs) => 2 + fuel_val kv.2 + fuel_members kvs

/-- Extra depth needed for the remaining array elements. -/
def fuel_elems : List Val → Nat
  | [] => 0
  | x :: xs => 1 + fuel_val x + fuel_elems xs

/-- Extra depth needed for the remaining object members. -/
def fuel_members : List (String × Val) → Nat
  | [] => 0
  | kv :: kvs => 1 + fuel_val kv.2 + fuel_members kvs

end

theorem fuel_val_pos (v : Val) : 1 ≤ fuel_val v := by
  cases v with
  | vnull => simp [fuel_val]
  | vbool b => simp [fuel_val]
  | vint n => simp [fuel_val]
  | vstr s => simp [fuel_val]
  | vlist l =>
    cases l with
    | nil => simp [fuel_val]
    | cons x xs => simp [fuel_val]; omega
  | vdict l =>
    cases l with
    | nil => simp [fuel_val]
    | cons kv kvs => simp [fuel_val]; omega

/-! ## Heads of serialized values -/

theorem dumps_val_head (v : Val) :
    ∃ c t, dumps_val v = c :: t ∧ is_json_ws c = false ∧ c ≠ ']' := by
  cases v with
  | vnull => exact ⟨'n', ['u', 'l', 'l'], by simp [dumps_val], by decide, by decide⟩
  | vbool b =>
    cases b with
    | true => exact ⟨'t', ['r', 'u', 'e'], by simp [dumps_val], by decide, by decide⟩
    | false =>
      exact ⟨'f', ['a', 'l', 's', 'e'], by simp [dumps_val], by decide, by decide⟩
  | vint n =>
    by_cases hn : n < 0
    · exact ⟨'-', nat_digits n.natAbs, by simp [dumps_val, int_repr, hn], by decide, by decide⟩
    · obtain ⟨c, t, hct, hcd, -, -⟩ := nat_digits_spec n.toNat
      exact ⟨c, t, by simp only [dumps_val, int_repr, if_neg hn]; exact hct,
        digit_not_ws hcd, digit_ne hcd ']' (by decide)⟩
  | vstr s =>
    exact ⟨'"', escape_string s.data ++ ['"'], by simp [dumps_val], by decide, by decide⟩
  | vlist l =>
    cases l with
    | nil => exact ⟨'[', [']'], by simp [dumps_val], by decide, by decide⟩
    | cons x xs =>
      exact ⟨'[', dumps_val x ++ dumps_list xs ++ [']'], by simp [dumps_val], by decide,
        by decide⟩
  | vdict l =>
    cases l with
    | nil => exact ⟨lbrace, [rbrace], by simp [dumps_val], by decide, by decide⟩
    | cons kv kvs =>
      exact ⟨lbrace, dumps_kv kv ++ dumps_dict kvs ++ [rbrace], by simp [dumps_val],
        by decide, by decide⟩

theorem num_boundary_cons_of {c : Char} (z : List Char) (h1 : c.isDigit = false)
    (h2 : c ≠ '.') (h3 : c ≠ 'e') (h4 : c ≠ 'E') : num_boundary (c :: z) = true := by
  simp [num_boundary, h1, h2, h3, h4]

/-! ## One-step unfolding lemmas for the recognizer -/

theorem parse_value_quote (f : Nat) (z : List Char) :
    parse_value (f + 1) ('"' :: z) = parse_string_body z := rfl

theorem parse_value_bracket (f : Nat) (z : List Char) (d : Char) (r : List Char)
    (hz : skip_ws z = d :: r) :
    parse_value (f + 1) ('[' :: z) =
      (if d = ']' then some r else parse_elements f (d :: r)) := by
  have h0 : parse_value (f + 1) ('[' :: z) =
      (match skip_ws z with
       | [] => none
       | d :: r => if d = ']' then some r else parse_elements f (d :: r)) := rfl
  rw [h0, hz]

theorem parse_value_brace (f : Nat) (z : List Char) (d : Char) (r : List Char)
    (hz : skip_ws z = d :: r) :
    parse_value (f + 1) (lbrace :: z) =
      (if d = rbrace then some r else parse_members f (d :: r)) := by
  have h0 : parse_value (f + 1) (lbrace :: z) =
      (match skip_ws z with
       | [] => none
       | d :: r => if d = rbrace then some r else parse_members f (d :: r)) := rfl
  rw [h0, hz]

theorem parse_elements_step (f : Nat) (cs afterVal : List Char) (d : Char) (r2 : List Char)
    (hv : parse_value f cs = some afterVal) (hs : skip_ws afterVal = d :: r2) :
    parse_elements (f + 1) cs =
      (if d = ']' then some r2
       else if d = ',' then parse_elements f (skip_ws r2) else none) := by
  have h0 : parse_elements (f + 1) cs =
      (match parse_value f cs with
       | none => none
       | some afterVal =>
         match skip_ws afterVal with
         | [] => none
         | d :: r2 =>
           if d = ']' then some r2
           else if d = ',' then parse_elements f (skip_ws r2) else none) := rfl
  rw [h0, hv]
  show (match skip_ws afterVal with
    | [] => none
    | d :: r2 =>
      if d = ']' then some r2
      else if d = ',' then parse_elements f (skip_ws r2) else none) = _
  rw [hs]

theorem parse_members_step (f : Nat) (rest0 afterKey : List Char)
    (hk : parse_string_body rest0 = some afterKey)
    (afterColon : List Char) (hc : skip_ws afterKey = ':' :: afterColon)
    (afterVal : List Char) (hv : parse_value f (skip_ws afterColon) = some afterVal)
    (d : Char) (r2 : List Char) (hs : skip_ws afterVal = d :: r2) :
    parse_members (f + 1) ('"' :: rest0) =
      (if d = rbrace then some r2
       else if d = ',' then parse_members f (skip_ws r2) else none) := by
  have h0 : parse_members (f + 1) ('"' :: rest0) =
      (match parse_string_body rest0 with
       | none => none
       | some afterKey =>
         match skip_ws afterKey with
         | ':' :: afterColon =>
           (match parse_value f (skip_ws afterColon) with
            | none => none
            | some afterVal =>
              match skip_ws afterVal with
              | [] => none
              | d :: r2 =>
                if d = rbrace then some r2
                else if d = ',' then parse_members f (skip_ws r2) else none)
         | _ => none) := rfl
  rw [h0, hk]
  show (match skip_ws afterKey with
    | ':' :: afterColon =>
      (match parse_value f (skip_ws afterColon) with
       | none => none
       | some afterVal =>
         match skip_ws afterVal with
         | [] => none
         | d :: r2 =>
           if d = rbrace then some r2
           else if d = ',' then parse_members f (skip_ws r2) else none)
    | _ => none) = _
  rw [hc]
  show (match parse_value f (skip_ws afterColon) with
    | none => none
    | some afterVal =>
      match skip_ws afterVal with
      | [] => none
      | d :: r2 =>
        if d = rbrace then some r2
        else if d = ',' then parse_members f (skip_ws r2) else none) = _
  rw [hv]
  show (match skip_ws afterVal with
    | [] => none
    | d :: r2 =>
      if d = rbrace then some r2
      else if d = ',' then parse_members f (skip_ws r2) else none) = _
  rw [hs]

/-! ## The scalar branch on serialized numbers -/

theorem number_head_ne {c : Char} (hc : c = '-' ∨ c.isDigit = true) (d : Char)
    (hd1 : d ≠ '-') (hd2 : d.isDigit = false) : c ≠ d := by
  rcases hc with h | h
  · subst h
    exact fun he => hd1 he.symm
  · exact digit_ne h d hd2

theorem drop_lit_ne {p c : Char} (ps t : List Char) (h : c ≠ p) :
    drop_lit (p :: ps) (c :: t) = none := by
  simp [drop_lit, h]

theorem parse_scalar_number (c : Char) (t rest : List Char)
    (hc : c = '-' ∨ c.isDigit = true)
    (hnum : parse_number (c :: t) = some rest) :
    parse_scalar (c :: t) = some rest := by
  have hn' : c ≠ 'n' := number_head_ne hc 'n' (by decide) (by decide)
  have ht' : c ≠ 't' := number_head_ne hc 't' (by decide) (by decide)
  have hf' : c ≠ 'f' := number_head_ne hc 'f' (by decide) (by decide)
  have d1 : drop_lit "null".data (c :: t) = none := by
    rw [show "null".data = 'n' :: ['u', 'l', 'l'] from rfl]
    exact drop_lit_ne _ t hn'
  have d2 : drop_lit "true".data (c :: t) = none := by
    rw [show "true".data = 't' :: ['r', 'u', 'e'] from rfl]
    exact drop_lit_ne _ t ht'
  have d3 : drop_lit "false".data (c :: t) = none := by
    rw [show "false".data = 'f' :: ['a', 'l', 's', 'e'] from rfl]
    exact drop_lit_ne _ t hf'
  simp only [parse_scalar, d1, d2, d3, hnum]

theorem parse_value_number (f : Nat) (c : Char) (t rest : List Char)
    (hc : c = '-' ∨ c.isDigit = true)
    (hnum : parse_number (c :: t) = some rest) :
    parse_value (f + 1) (c :: t) = some rest := by
  have hq : c ≠ '"' := number_head_ne hc '"' (by decide) (by decide)
  have hlb : c ≠ lbrace := number_head_ne hc lbrace (by decide) (by decide)
  have hbr : c ≠ '[' := number_head_ne hc '[' (by decide) (by decide)
  have h0 : parse_value (f + 1) (c :: t) =
      (if c = '"' then parse_string_body t
       else if c = lbrace then
         (match skip_ws t with
          | [] => none
          | d :: r => if d = rbrace then some r else parse_members f (d :: r))
       else if c = '[' then
         (match skip_ws t with
          | [] => none
          | d :: r => if d = ']' then some r else parse_elements f (d :: r))
       else parse_scalar (c :: t)) := rfl
  rw [h0, if_neg hq, if_neg hlb, if_neg hbr]
  exact parse_scalar_number c t rest hc hnum

/-! ## Arrays and objects round-trip through the recognizer -/

theorem parse_elements_chain (xs : List Val) :
    ∀ x : Val,
      (∀ y, (y = x ∨ y ∈ xs) → ∀ fuel rest, fuel_val y ≤ fuel → num_boundary rest = true →
        parse_value fuel (dumps_val y ++ rest) = some rest) →
      ∀ fuel rest, 1 + fuel_val x + fuel_elems xs ≤ fuel →
        parse_elements fuel (dumps_val x ++ (dumps_list xs ++ ']' :: rest)) = some rest := by
  induction xs with
  | nil =>
    intro x IH fuel rest hfuel
    obtain ⟨f, rfl⟩ : ∃ f, fuel = f + 1 := ⟨fuel - 1, by omega⟩
    have hfe : fuel_elems ([] : List Val) = 0 := by simp [fuel_elems]
    have hb : num_boundary (']' :: rest) = true :=
      num_boundary_cons_of rest (by decide) (by decide) (by decide) (by decide)
    have hds : dumps_list ([] : List Val) = [] := by simp [dumps_list]
    rw [hds, List.nil_append]
    have hv := IH x (Or.inl rfl) f (']' :: rest) (by omega) hb
    rw [parse_elements_step f _ (']' :: rest) ']' rest hv (skip_ws_cons rest (by decide))]
    simp
  | cons y ys ihl =>
    intro x IH fuel rest hfuel
    obtain ⟨f, rfl⟩ : ∃ f, fuel = f + 1 := ⟨fuel - 1, by omega⟩
    have hfe : fuel_elems (y :: ys) = 1 + fuel_val y + fuel_elems ys := by simp [fuel_elems]
    have hdl : dumps_list (y :: ys) = ',' :: ' ' :: (dumps_val y ++ dumps_list ys) := by
      simp [dumps_list]
    rw [hdl]
    simp only [List.cons_append, List.append_assoc]
    -- input: dumps_val x ++ (','::' '::(dumps_val y ++ (dumps_list ys ++ ']'::rest)))
    have hb : num_boundary (',' :: ' ' :: (dumps_val y ++ (dumps_list ys ++ ']' :: rest))) =
        true :=
      num_boundary_cons_of _ (by decide) (by decide) (by decide) (by decide)
    have hv := IH x (Or.inl rfl) f _ (by omega) hb
    rw [parse_elements_step f _ _ ',' (' ' :: (dumps_val y ++ (dumps_list ys ++ ']' :: rest)))
      hv (skip_ws_cons _ (by decide))]
    rw [if_neg (by decide : ¬ (',' : Char) = ']'), if_pos rfl]
    have hsw : skip_ws (' ' :: (dumps_val y ++ (dumps_list ys ++ ']' :: rest))) =
        skip_ws (dumps_val y ++ (dumps_list ys ++ ']' :: rest)) :=
      skip_ws_ws _ (by decide)
    obtain ⟨cy, ty, hcty, hwsy, -⟩ := dumps_val_head y
    have hZ : skip_ws (dumps_val y ++ (dumps_list ys ++ ']' :: rest)) =
        dumps_val y ++ (dumps_list ys ++ ']' :: rest) := by
      rw [hcty, List.cons_append]
      exact skip_ws_cons _ hwsy
    rw [hsw, hZ]
    exact ihl y
      (fun z hz => IH z (by
        rcases hz with rfl | hmem
        · exact Or.inr (List.mem_cons_self _ _)
        · exact Or.inr (List.mem_cons_of_mem _ hmem)))
      f rest (by omega)

theorem parse_members_chain (kvs : List (String × Val)) :
    ∀ (k : String) (v : Val),
      (∀ y, (y = v ∨ y ∈ kvs.map Prod.snd) → ∀ fuel rest, fuel_val y ≤ fuel →
        num_boundary rest = true → parse_value fuel (dumps_val y ++ rest) = some rest) →
      ∀ fuel rest, 1 + fuel_val v + fuel_members kvs ≤ fuel →
        parse_members fuel (dumps_kv (k, v) ++ (dumps_dict kvs ++ rbrace :: rest)) =
          some rest := by
  induction kvs with
  | nil =>
    intro k v IH fuel rest hfuel
    obtain ⟨f, rfl⟩ : ∃ f, fuel = f + 1 := ⟨fuel - 1, by omega⟩
    have hdd : dumps_dict ([] : List (String × Val)) = [] := by simp [dumps_dict]
    rw [hdd, List.nil_append]
    rw [show dumps_kv (k, v) = '"' :: (escape_string k.data ++ '"' :: ':' :: ' ' :: dumps_val v)
      from by simp [dumps_kv]]
    simp only [List.cons_append, List.append_assoc]
    have hb : num_boundary (rbrace :: rest) = true :=
      num_boundary_cons_of rest (by decide) (by decide) (by decide) (by decide)
    obtain ⟨cv, tv, hctv, hwv, -⟩ := dumps_val_head v
    have hsv : skip_ws (' ' :: (dumps_val v ++ rbrace :: rest)) =
        dumps_val v ++ rbrace :: rest := by
      rw [skip_ws_ws _ (by decide), hctv, List.cons_append]
      exact skip_ws_cons _ hwv
    have hv : parse_value f (skip_ws (' ' :: (dumps_val v ++ rbrace :: rest))) =
        some (rbrace :: rest) := by
      rw [hsv]
      exact IH v (Or.inl rfl) f (rbrace :: rest) (by omega) hb
    rw [parse_members_step f _ (':' :: ' ' :: (dumps_val v ++ rbrace :: rest))
      (parse_string_body_escape k.data _) (' ' :: (dumps_val v ++ rbrace :: rest))
      (skip_ws_cons _ (by decide)) (rbrace :: rest) hv rbrace rest
      (skip_ws_cons _ (by decide))]
    simp
  | cons kv2 kvs' ihl =>
    intro k v IH fuel rest hfuel
    obtain ⟨f, rfl⟩ : ∃ f, fuel = f + 1 := ⟨fuel - 1, by omega⟩
    obtain ⟨k2, v2⟩ := kv2
    have hfm : fuel_members ((k2, v2) :: kvs') = 1 + fuel_val v2 + fuel_members kvs' := by
      simp [fuel_members]
    have hdd : dumps_dict ((k2, v2) :: kvs') =
        ',' :: ' ' :: (dumps_kv (k2, v2) ++ dumps_dict kvs') := by simp [dumps_dict]
    rw [hdd]
    rw [show dumps_kv (k, v) = '"' :: (escape_string k.data ++ '"' :: ':' :: ' ' :: dumps_val v)
      from by simp [dumps_kv]]
    simp only [List.cons_append, List.append_assoc]
    -- after the first member the input continues ',' ' ' then the next member
    have TAILeq : (',' :: ' ' :: (dumps_kv (k2, v2) ++ (dumps_dict kvs' ++ rbrace :: rest))) =
        ',' :: ' ' :: (dumps_kv (k2, v2) ++ (dumps_dict kvs' ++ rbrace :: rest)) := rfl
    have hb : num_boundary
        (',' :: ' ' :: (dumps_kv (k2, v2) ++ (dumps_dict kvs' ++ rbrace :: rest))) = true :=
      num_boundary_cons_of _ (by decide) (by decide) (by decide) (by decide)
    obtain ⟨cv, tv, hctv, hwv, -⟩ := dumps_val_head v
    have hsv : skip_ws (' ' :: (dumps_val v ++
        ',' :: ' ' :: (dumps_kv (k2, v2) ++ (dumps_dict kvs' ++ rbrace :: rest)))) =
        dumps_val v ++
          ',' :: ' ' :: (dumps_kv (k2, v2) ++ (dumps_dict kvs' ++ rbrace :: rest)) := by
      rw [skip_ws_ws _ (by decide), hctv, List.cons_append]
      exact skip_ws_cons _ hwv
    have hv : parse_value f (skip_ws (' ' :: (dumps_val v ++
        ',' :: ' ' :: (dumps_kv (k2, v2) ++ (dumps_dict kvs' ++ rbrace :: rest))))) =
        some (',' :: ' ' :: (dumps_kv (k2, v2) ++ (dumps_dict kvs' ++ rbrace :: rest))) := by
      rw [hsv]
      exact IH v (Or.inl rfl) f _ (by omega) hb
    rw [parse_members_step f _ _
      (parse_string_body_escape k.data _) _
      (skip_ws_cons _ (by decide)) _ hv ','
      (' ' :: (dumps_kv (k2, v2) ++ (dumps_dict kvs' ++ rbrace :: rest)))
      (skip_ws_cons _ (by decide))]
    rw [if_neg (by decide : ¬ (',' : Char) = rbrace), if_pos rfl]
    have hkv2 : dumps_kv (k2, v2) =
        '"' :: (escape_string k2.data ++ '"' :: ':' :: ' ' :: dumps_val v2) := by
      simp [dumps_kv]
    have hsw2 : skip_ws (' ' :: (dumps_kv (k2, v2) ++ (dumps_dict kvs' ++ rbrace :: rest))) =
        dumps_kv (k2, v2) ++ (dumps_dict kvs' ++ rbrace :: rest) := by
      rw [skip_ws_ws _ (by decide), hkv2, List.cons_append]
      exact skip_ws_cons _ (by decide)
    rw [hsw2]
    have hmap : ((k2, v2) :: kvs').map Prod.snd = v2 :: kvs'.map Prod.snd := rfl
    exact ihl k2 v2
      (fun z hz => IH z (by
        rcases hz with rfl | hmem
        · exact Or.inr (by rw [hmap]; exact List.mem_cons_self _ _)
        · exact Or.inr (by rw [hmap]; exact List.mem_cons_of_mem _ hmem)))
      f rest (by omega)

/-- Strong-induction core of `parse_value_dumps`, descending on `sizeOf`. -/
theorem parse_value_dumps_aux (N : Nat) : ∀ v : Val, sizeOf v ≤ N →
    ∀ (fuel : Nat) (rest : List Char), fuel_val v ≤ fuel → num_boundary rest = true →
      parse_value fuel (dumps_val v ++ rest) = some rest := by
  induction N with
  | zero =>
    intro v hv
    exfalso
    cases v <;> simp at hv
  | succ N ihN =>
    intro v hv fuel rest hfuel hrest
    obtain ⟨f, rfl⟩ : ∃ f, fuel = f + 1 := ⟨fuel - 1, by have := fuel_val_pos v; omega⟩
    cases v with
    | vnull =>
      rw [show dumps_val .vnull = 'n' :: 'u' :: 'l' :: 'l' :: [] from by simp [dumps_val]]
      rfl
    | vbool b =>
      cases b with
      | true =>
        rw [show dumps_val (.vbool true) = 't' :: 'r' :: 'u' :: 'e' :: [] from by
          simp [dumps_val]]
        rfl
      | false =>
        rw [show dumps_val (.vbool false) = 'f' :: 'a' :: 'l' :: 's' :: 'e' :: [] from by
          simp [dumps_val]]
        rfl
    | vint n =>
      rw [show dumps_val (.vint n) = int_repr n from by simp [dumps_val]]
      have hnum := parse_number_int n rest hrest
      unfold int_repr at hnum ⊢
      by_cases hn : n < 0
      · rw [if_pos hn] at hnum ⊢
        rw [List.cons_append] at hnum ⊢
        exact parse_value_number f '-' (nat_digits n.natAbs ++ rest) rest (Or.inl rfl) hnum
      · rw [if_neg hn] at hnum ⊢
        obtain ⟨c, t, hct, hcd, -, -⟩ := nat_digits_spec n.toNat
        rw [hct, List.cons_append] at hnum ⊢
        exact parse_value_number f c (t ++ rest) rest (Or.inr hcd) hnum
    | vstr s =>
      rw [show dumps_val (.vstr s) = '"' :: (escape_string s.data ++ ['"']) from by
        simp [dumps_val]]
      rw [List.cons_append, List.append_assoc, parse_value_quote]
      rw [show (['"'] ++ rest : List Char) = '"' :: rest from rfl]
      exact parse_string_body_escape s.data rest
    | vlist l =>
      cases l with
      | nil =>
        rw [show dumps_val (.vlist []) = ['[', ']'] from by simp [dumps_val]]
        rfl
      | cons x xs =>
        rw [show dumps_val (.vlist (x :: xs)) = '[' :: (dumps_val x ++ dumps_list xs ++ [']'])
          from by simp [dumps_val]]
        simp only [List.cons_append, List.append_assoc, List.singleton_append,
          List.nil_append]
        obtain ⟨cx, tx, hctx, hwx, hbx⟩ := dumps_val_head x
        have hz : skip_ws (dumps_val x ++ (dumps_list xs ++ ']' :: rest)) =
            cx :: (tx ++ (dumps_list xs ++ ']' :: rest)) := by
          rw [hctx, List.cons_append]
          exact skip_ws_cons _ hwx
        rw [parse_value_bracket f _ cx _ hz, if_neg hbx, ← List.cons_append, ← hctx]
        have hfv : fuel_val (Val.vlist (x :: xs)) = 2 + fuel_val x + fuel_elems xs := by
          simp [fuel_val]
        refine parse_elements_chain xs x (fun y hy => ihN y ?_) f rest (by omega)
        rcases hy with rfl | hmem
        · simp at hv
          omega
        · have := List.sizeOf_lt_of_mem hmem
          simp at hv
          omega
    | vdict l =>
      cases l with
      | nil =>
        rw [show dumps_val (.vdict []) = [lbrace, rbrace] from by simp [dumps_val]]
        rfl
      | cons kv kvs =>
        obtain ⟨k1, v1⟩ := kv
        rw [show dumps_val (.vdict ((k1, v1) :: kvs)) =
            lbrace :: (dumps_kv (k1, v1) ++ dumps_dict kvs ++ [rbrace]) from by
          simp [dumps_val]]
        simp only [List.cons_append, List.append_assoc, List.singleton_append,
          List.nil_append]
        have hkv : dumps_kv (k1, v1) =
            '"' :: (escape_string k1.data ++ '"' :: ':' :: ' ' :: dumps_val v1) := by
          simp [dumps_kv]
        have hz : skip_ws (dumps_kv (k1, v1) ++ (dumps_dict kvs ++ rbrace :: rest)) =
            '"' :: ((escape_string k1.data ++ '"' :: ':' :: ' ' :: dumps_val v1) ++
              (dumps_dict kvs ++ rbrace :: rest)) := by
          rw [hkv, List.cons_append]
          exact skip_ws_cons _ (by decide)
        rw [parse_value_brace f _ '"' _ hz, if_neg (by decide : ¬ ('"' : Char) = rbrace)]
        rw [← List.cons_append, ← hkv]
        have hfv : fuel_val (Val.vdict ((k1, v1) :: kvs)) =
            2 + fuel_val v1 + fuel_members kvs := by simp [fuel_val]
        refine parse_members_chain kvs k1 v1 (fun y hy => ihN y ?_) f rest (by omega)
        rcases hy with rfl | hmem
        · simp at hv
          omega
        · obtain ⟨p, hp, hpy⟩ := List.mem_map.mp hmem
          have h1 := List.sizeOf_lt_of_mem hp
          obtain ⟨pk, pv⟩ := p
          simp at hpy
          subst hpy
          simp at hv h1
          omega

/-- Every serialized value is accepted by the recognizer, consuming
exactly the serialized characters, for any sufficient fuel. -/
theorem parse_value_dumps (v : Val) :
    ∀ (fuel : Nat) (rest : List Char), fuel_val v ≤ fuel → num_boundary rest = true →
      parse_value fuel (dumps_val v ++ rest) = some rest :=
  parse_value_dumps_aux (sizeOf v) v (Nat.le_refl _)

/-! ## The default fuel of `json_valid` is sufficient for serialized values -/

theorem fuel_elems_le (xs : List Val)
    (IH : ∀ y ∈ xs, fuel_val y ≤ (dumps_val y).length + 1) :
    fuel_elems xs ≤ (dumps_list xs).length := by
  induction xs with
  | nil => simp [fuel_elems, dumps_list]
  | cons y ys ih =>
    have h1 := IH y (List.mem_cons_self _ _)
    have h2 := ih (fun z hz => IH z (List.mem_cons_of_mem _ hz))
    have h3 : (dumps_list (y :: ys)).length =
        2 + (dumps_val y).length + (dumps_list ys).length := by
      simp [dumps_list]
      omega
    have h4 : fuel_elems (y :: ys) = 1 + fuel_val y + fuel_elems ys := by simp [fuel_elems]
    omega

theorem fuel_members_le (kvs : List (String × Val))
    (IH : ∀ y ∈ kvs.map Prod.snd, fuel_val y ≤ (dumps_val y).length + 1) :
    fuel_members kvs ≤ (dumps_dict kvs).length := by
  induction kvs with
  | nil => simp [fuel_members, dumps_dict]
  | cons kv kvs' ih =>
    obtain ⟨k, v⟩ := kv
    have hmap : ((k, v) :: kvs').map Prod.snd = v :: kvs'.map Prod.snd := rfl
    have h1 := IH v (hmap ▸ List.mem_cons_self v (kvs'.map Prod.snd))
    have h2 := ih (fun z hz => IH z (hmap ▸ List.mem_cons_of_mem v hz))
    have h3 : (dumps_dict ((k, v) :: kvs')).length =
        2 + (dumps_kv (k, v)).length + (dumps_dict kvs').length := by
      simp [dumps_dict]
      omega
    have h4 : (dumps_kv (k, v)).length =
        (escape_string k.data).length + (dumps_val v).length + 4 := by
      simp [dumps_kv]
      omega
    have h5 : fuel_members ((k, v) :: kvs') = 1 + fuel_val v + fuel_members kvs' := by
      simp [fuel_members]
    omega

theorem fuel_val_le_aux (N : Nat) : ∀ v : Val, sizeOf v ≤ N →
    fuel_val v ≤ (dumps_val v).length + 1 := by
  induction N with
  | zero =>
    intro v hv
    exfalso
    cases v <;> simp at hv
  | succ N ihN =>
    intro v hv
    cases v with
    | vnull => simp [fuel_val]
    | vbool b => cases b <;> simp [fuel_val]
    | vint n => simp [fuel_val]
    | vstr s => simp [fuel_val]
    | vlist l =>
      cases l with
      | nil => simp [fuel_val]
      | cons x xs =>
        have h1 : fuel_val x ≤ (dumps_val x).length + 1 := by
          refine ihN x ?_
          simp at hv
          omega
        have h2 : fuel_elems xs ≤ (dumps_list xs).length := by
          refine fuel_elems_le xs (fun y hy => ihN y ?_)
          have := List.sizeOf_lt_of_mem hy
          simp at hv
          omega
        have h3 : (dumps_val (Val.vlist (x :: xs))).length =
            2 + (dumps_val x).length + (dumps_list xs).length := by
          simp [dumps_val]
          omega
        have h4 : fuel_val (Val.vlist (x :: xs)) = 2 + fuel_val x + fuel_elems xs := by
          simp [fuel_val]
        omega
    | vdict l =>
      cases l with
      | nil => simp [fuel_val]
      | cons kv kvs =>
        obtain ⟨k1, v1⟩ := kv
        have h1 : fuel_val v1 ≤ (dumps_val v1).length + 1 := by
          refine ihN v1 ?_
          simp at hv
          omega
        have h2 : fuel_members kvs ≤ (dumps_dict kvs).length := by
          refine fuel_members_le kvs (fun y hy => ihN y ?_)
          obtain ⟨p, hp, hpy⟩ := List.mem_map.mp hy
          have hs := List.sizeOf_lt_of_mem hp
          obtain ⟨pk, pv⟩ := p
          simp at hpy
          subst hpy
          simp at hv hs
          omega
        have h3 : (dumps_val (Val.vdict ((k1, v1) :: kvs))).length =
            2 + (dumps_kv (k1, v1)).length + (dumps_dict kvs).length := by
          simp [dumps_val]
          omega
        have h4 : (dumps_kv (k1, v1)).length =
            (escape_string k1.data).length + (dumps_val v1).length + 4 := by
          simp [dumps_kv]
          omega
        have h5 : fuel_val (Val.vdict ((k1, v1) :: kvs)) =
            2 + fuel_val v1 + fuel_members kvs := by simp [fuel_val]
        omega

theorem fuel_val_le (v : Val) : fuel_val v ≤ (dumps_val v).length + 1 :=
  fuel_val_le_aux (sizeOf v) v (Nat.le_refl _)

/-- `json.dumps(v, ensure_ascii=False)` always yields a string accepted by
`json.loads`: the repair invariant behind sanitization. -/
theorem json_valid_dumps (v : Val) : json_valid (json_dumps v) = true := by
  unfold json_valid json_dumps
  have hdata : (String.mk (dumps_val v)).data = dumps_val v := rfl
  rw [hdata]
  obtain ⟨c, t, hct, hws, -⟩ := dumps_val_head v
  have hskip : skip_ws (dumps_val v) = dumps_val v := by
    rw [hct]
    exact skip_ws_cons _ hws
  rw [hskip]
  have hp := parse_value_dumps v ((dumps_val v).length + 1)
    [] (by have := fuel_val_le v; omega) (by decide)
  rw [List.append_nil] at hp
  rw [hp]
  simp [skip_ws]

/-! ## Sanitization lemmas -/

theorem json_valid_emptyobj : json_valid "\x7b\x7d" = true := by decide

/-- The branches of `sanitize_function`, one equation per stored shape. -/
theorem sanitize_function_dict (f : PyDict) (args : PyDict)
    (h : assoc_get f "arguments" = some (.vdict args)) :
    sanitize_function f = assoc_set f "arguments" (.vstr (json_dumps (.vdict args))) := by
  unfold sanitize_function
  rw [h]

theorem sanitize_function_str (f : PyDict) (s : String)
    (h : assoc_get f "arguments" = some (.vstr s)) :
    sanitize_function f =
      (if json_valid s then f else assoc_set f "arguments" (.vstr "\x7b\x7d")) := by
  unfold sanitize_function
  rw [h]

theorem sanitize_function_null (f : PyDict)
    (h : assoc_get f "arguments" = some .vnull) :
    sanitize_function f = assoc_set f "arguments" (.vstr "\x7b\x7d") := by
  unfold sanitize_function
  rw [h]

theorem sanitize_function_absent (f : PyDict)
    (h : assoc_get f "arguments" = none) :
    sanitize_function f = assoc_set f "arguments" (.vstr "\x7b\x7d") := by
  unfold sanitize_function
  rw [h]

theorem sanitize_function_bool (f : PyDict) (b : Bool)
    (h : assoc_get f "arguments" = some (.vbool b)) : sanitize_function f = f := by
  unfold sanitize_function
  rw [h]

theorem sanitize_function_int (f : PyDict) (n : Int)
    (h : assoc_get f "arguments" = some (.vint n)) : sanitize_function f = f := by
  unfold sanitize_function
  rw [h]

theorem sanitize_function_list (f : PyDict) (l : List Val)
    (h : assoc_get f "arguments" = some (.vlist l)) : sanitize_function f = f := by
  unfold sanitize_function
  rw [h]

/-- After sanitization, a string-valued `arguments` field is valid JSON. -/
theorem sanitize_function_valid (f : PyDict) (s : String)
    (h : assoc_get (sanitize_function f) "arguments" = some (.vstr s)) :
    json_valid s = true := by
  cases hget : assoc_get f "arguments" with
  | none =>
    rw [sanitize_function_absent f hget, assoc_get_set_self] at h
    simp only [Option.some.injEq, Val.vstr.injEq] at h
    rw [← h]
    exact json_valid_emptyobj
  | some v =>
    cases v with
    | vnull =>
      rw [sanitize_function_null f hget, assoc_get_set_self] at h
      simp only [Option.some.injEq, Val.vstr.injEq] at h
      rw [← h]
      exact json_valid_emptyobj
    | vbool b =>
      rw [sanitize_function_bool f b hget, hget] at h
      exact absurd h (by simp)
    | vint n =>
      rw [sanitize_function_int f n hget, hget] at h
      exact absurd h (by simp)
    | vstr s0 =>
      rw [sanitize_function_str f s0 hget] at h
      by_cases hv : json_valid s0
      · rw [if_pos hv, hget] at h
        simp only [Option.some.injEq, Val.vstr.injEq] at h
        rw [← h]
        exact hv
      · rw [if_neg hv, assoc_get_set_self] at h
        simp only [Option.some.injEq, Val.vstr.injEq] at h
        rw [← h]
        exact json_valid_emptyobj
    | vlist l =>
      rw [sanitize_function_list f l hget, hget] at h
      exact absurd h (by simp)
    | vdict d =>
      rw [sanitize_function_dict f d hget, assoc_get_set_self] at h
      simp only [Option.some.injEq, Val.vstr.injEq] at h
      rw [← h]
      exact json_valid_dumps (.vdict d)

/-- Sanitizing the `function` mapping twice equals sanitizing it once. -/
theorem sanitize_function_idem (f : PyDict) :
    sanitize_function (sanitize_function f) = sanitize_function f := by
  cases hget : assoc_get f "arguments" with
  | none =>
    rw [sanitize_function_absent f hget]
    rw [sanitize_function_str _ _ (assoc_get_set_self f "arguments" _),
      if_pos json_valid_emptyobj]
  | some v =>
    cases v with
    | vnull =>
      rw [sanitize_function_null f hget]
      rw [sanitize_function_str _ _ (assoc_get_set_self f "arguments" _),
        if_pos json_valid_emptyobj]
    | vbool b =>
      rw [sanitize_function_bool f b hget, sanitize_function_bool f b hget]
    | vint n =>
      rw [sanitize_function_int f n hget, sanitize_function_int f n hget]
    | vstr s0 =>
      rw [sanitize_function_str f s0 hget]
      by_cases hv : json_valid s0
      · rw [if_pos hv, sanitize_function_str f s0 hget, if_pos hv]
      · rw [if_neg hv]
        rw [sanitize_function_str _ _ (assoc_get_set_self f "arguments" _),
          if_pos json_valid_emptyobj]
    | vlist l =>
      rw [sanitize_function_list f l hget, sanitize_function_list f l hget]
    | vdict d =>
      rw [sanitize_function_dict f d hget]
      rw [sanitize_function_str _ _ (assoc_get_set_self f "arguments" _),
        if_pos (json_valid_dumps (.vdict d))]

/-- The branches of `sanitize_tool_call`. -/
theorem sanitize_tool_call_dict (call : PyDict) (f : PyDict)
    (h : assoc_get call "function" = some (.vdict f)) :
    sanitize_tool_call call = assoc_set call "function" (.vdict (sanitize_function f)) := by
  unfold sanitize_tool_call
  rw [h]

theorem sanitize_tool_call_other (call : PyDict)
    (h : ∀ f, assoc_get call "function" ≠ some (.vdict f)) :
    sanitize_tool_call call = call := by
  unfold sanitize_tool_call
  cases hget : assoc_get call "function" with
  | none => rfl
  | some v =>
    cases v with
    | vnull => rfl
    | vbool b => rfl
    | vint n => rfl
    | vstr s => rfl
    | vlist l => rfl
    | vdict f => exact absurd hget (h f)

/-- Sanitizing a call twice equals sanitizing it once. -/
theorem sanitize_tool_call_idem (call : PyDict) :
    sanitize_tool_call (sanitize_tool_call call) = sanitize_tool_call call := by
  cases hget : assoc_get call "function" with
  | none =>
    have hno : ∀ f, assoc_get call "function" ≠ some (.vdict f) := by simp [hget]
    rw [sanitize_tool_call_other call hno, sanitize_tool_call_other call hno]
  | some v =>
    cases v with
    | vdict f =>
      rw [sanitize_tool_call_dict call f hget]
      rw [sanitize_tool_call_dict _ (sanitize_function f)
        (assoc_get_set_self call "function" _)]
      rw [sanitize_function_idem, assoc_set_set]
    | vnull =>
      have hno : ∀ f, assoc_get call "function" ≠ some (.vdict f) := by simp [hget]
      rw [sanitize_tool_call_other call hno, sanitize_tool_call_other call hno]
    | vbool b =>
      have hno : ∀ f, assoc_get call "function" ≠ some (.vdict f) := by simp [hget]
      rw [sanitize_tool_call_other call hno, sanitize_tool_call_other call hno]
    | vint n =>
      have hno : ∀ f, assoc_get call "function" ≠ some (.vdict f) := by simp [hget]
      rw [sanitize_tool_call_other call hno, sanitize_tool_call_other call hno]
    | vstr s =>
      have hno : ∀ f, assoc_get call "function" ≠ some (.vdict f) := by simp [hget]
      rw [sanitize_tool_call_other call hno, sanitize_tool_call_other call hno]
    | vlist l =>
      have hno : ∀ f, assoc_get call "function" ≠ some (.vdict f) := by simp [hget]
      rw [sanitize_tool_call_other call hno, sanitize_tool_call_other call hno]

/-- Every call collected by `_normalize_tool_calls` whose `function` is a
mapping with a string-valued `arguments` carries valid JSON there. -/
theorem normalize_tool_calls_valid (value : Option Val) (item : PyDict)
    (hmem : item ∈ normalize_tool_calls value) (f : PyDict) (s : String)
    (hf : assoc_get item "function" = some (.vdict f))
    (hs : assoc_get f "arguments" = some (.vstr s)) :
    json_valid s = true := by
  have hex : ∃ d0, item = sanitize_tool_call d0 := by
    unfold normalize_tool_calls at hmem
    cases value with
    | none => simp at hmem
    | some v =>
      cases v with
      | vnull => simp at hmem
      | vbool b => simp at hmem
      | vint n => simp at hmem
      | vstr s => simp at hmem
      | vdict d => simp at hmem
      | vlist items =>
        obtain ⟨a, ha, hga⟩ := List.mem_filterMap.mp hmem
        cases a with
        | vdict d0 =>
          simp only [Option.some.injEq] at hga
          exact ⟨d0, hga.symm⟩
        | vnull => simp at hga
        | vbool b => simp at hga
        | vint n => simp at hga
        | vstr s => simp at hga
        | vlist l => simp at hga
  obtain ⟨d0, rfl⟩ := hex
  cases hget : assoc_get d0 "function" with
  | none =>
    rw [sanitize_tool_call_other d0 (by simp [hget]), hget] at hf
    exact absurd hf (by simp)
  | some v =>
    cases v with
    | vdict f0 =>
      rw [sanitize_tool_call_dict d0 f0 hget, assoc_get_set_self] at hf
      simp only [Option.some.injEq, Val.vdict.injEq] at hf
      rw [← hf] at hs
      exact sanitize_function_valid f0 s hs
    | vnull =>
      rw [sanitize_tool_call_other d0 (by simp [hget]), hget] at hf
      exact absurd hf (by simp)
    | vbool b =>
      rw [sanitize_tool_call_other d0 (by simp [hget]), hget] at hf
      exact absurd hf (by simp)
    | vint n =>
      rw [sanitize_tool_call_other d0 (by simp [hget]), hget] at hf
      exact absurd hf (by simp)
    | vstr s2 =>
      rw [sanitize_tool_call_other d0 (by simp [hget]), hget] at hf
      exact absurd hf (by simp)
    | vlist l =>
      rw [sanitize_tool_call_other d0 (by simp [hget]), hget] at hf
      exact absurd hf (by simp)

/-! ## Selection-step equations and message-field lemmas -/

theorem assoc_get_set_ne {α : Type} (d : List (String × α)) {k k' : String} (v : α)
    (h : k' ≠ k) : assoc_get (assoc_set d k' v) k = assoc_get d k := by
  induction d with
  | nil => simp [assoc_set, assoc_get, h]
  | cons kv rest ih =>
    obtain ⟨k2, v2⟩ := kv
    by_cases h2 : k2 = k'
    · subst h2
      simp [assoc_set, assoc_get, h]
    · simp only [assoc_set, if_neg h2, assoc_get]
      by_cases h3 : k2 = k
      · simp [h3]
      · simp [h3, ih]

theorem select_step_message (state : List PyDict × List PyDict) (entry : TapeEntry)
    (h : entry.kind = "message") :
    select_step state entry = (state.1 ++ [entry.payload], state.2) := by
  unfold select_step
  rw [h, if_pos rfl]
  rfl

theorem select_step_tool_call (state : List PyDict × List PyDict) (entry : TapeEntry)
    (h : entry.kind = "tool_call") :
    select_step state entry = append_tool_call_entry state.1 entry.payload := by
  unfold select_step
  rw [h, if_neg (by decide), if_pos rfl]

theorem select_step_tool_result (state : List PyDict × List PyDict) (entry : TapeEntry)
    (h : entry.kind = "tool_result") :
    select_step state entry = (append_tool_result_entry state.1 state.2 entry.payload, []) := by
  unfold select_step
  rw [h, if_neg (by decide), if_neg (by decide), if_pos rfl]

theorem append_tool_result_entry_list (messages pending_calls : List PyDict)
    (payload : PyDict) (rs : List Val)
    (h : assoc_get payload "results" = some (.vlist rs)) :
    append_tool_result_entry messages pending_calls payload =
      messages ++ append_results pending_calls 0 rs := by
  unfold append_tool_result_entry
  rw [h]

theorem append_tool_result_entry_other (messages pending_calls : List PyDict)
    (payload : PyDict)
    (h : ∀ rs, assoc_get payload "results" ≠ some (.vlist rs)) :
    append_tool_result_entry messages pending_calls payload = messages := by
  unfold append_tool_result_entry
  cases hget : assoc_get payload "results" with
  | none => rfl
  | some v =>
    cases v with
    | vnull => rfl
    | vbool b => rfl
    | vint n => rfl
    | vstr s => rfl
    | vdict d => rfl
    | vlist rs => exact absurd hget (h rs)

theorem append_results_length (pending_calls : List PyDict) (idx : Nat) (rs : List Val) :
    (append_results pending_calls idx rs).length = rs.length := by
  induction rs generalizing idx with
  | nil => rfl
  | cons r rs ih => simp [append_results, ih]

theorem append_results_get (pending_calls : List PyDict) (idx : Nat) (rs : List Val)
    (i : Nat) (hi : i < rs.length)
    (hi2 : i < (append_results pending_calls idx rs).length) :
    (append_results pending_calls idx rs).get ⟨i, hi2⟩ =
      build_tool_result_message (rs.get ⟨i, hi⟩) pending_calls (idx + i) := by
  induction rs generalizing idx i with
  | nil => exact absurd hi (by simp)
  | cons r rs ih =>
    cases i with
    | zero => simp [append_results]
    | succ j =>
      have hj : j < rs.length := by simpa using hi
      have hj2 : j < (append_results pending_calls (idx + 1) rs).length := by
        rw [append_results_length]
        exact hj
      have := ih (idx + 1) j hj hj2
      simp only [append_results, List.get_cons_succ]
      rw [this]
      congr 1
      omega

theorem btr_base_fields (result : Val) :
    assoc_get (btr_base result) "role" = some (.vstr "tool") ∧
    assoc_get (btr_base result) "content" = some (.vstr (render_tool_result result)) ∧
    assoc_get (btr_base result) "tool_call_id" = none ∧
    assoc_get (btr_base result) "name" = none :=
  ⟨rfl, rfl, rfl, rfl⟩

theorem btr_with_id_preserves (message call : PyDict) (k : String)
    (hk : k ≠ "tool_call_id") :
    assoc_get (btr_with_id message call) k = assoc_get message k := by
  unfold btr_with_id
  cases hget : assoc_get call "id" with
  | none => rfl
  | some v =>
    cases v with
    | vstr cid =>
      by_cases hc : cid = ""
      · simp [hc]
      · simp only [ne_eq, hc, not_false_iff, if_true]
        exact assoc_get_set_ne message _ (fun he => hk he.symm)
    | vnull => rfl
    | vbool b => rfl
    | vint n => rfl
    | vlist l => rfl
    | vdict d => rfl

theorem btr_with_id_get (message call : PyDict)
    (hm : assoc_get message "tool_call_id" = none) :
    assoc_get (btr_with_id message call) "tool_call_id" =
      (match assoc_get call "id" with
       | some (.vstr cid) => if cid = "" then none else some (.vstr cid)
       | _ => none) := by
  unfold btr_with_id
  cases hget : assoc_get call "id" with
  | none => exact hm
  | some v =>
    cases v with
    | vstr cid =>
      by_cases hc : cid = ""
      · simp [hc, hm]
      · simp [hc, assoc_get_set_self]
    | vnull => exact hm
    | vbool b => exact hm
    | vint n => exact hm
    | vlist l => exact hm
    | vdict d => exact hm

theorem btr_name_of_preserves (message f : PyDict) (k : String) (hk : k ≠ "name") :
    assoc_get (btr_name_of message f) k = assoc_get message k := by
  unfold btr_name_of
  cases hget2 : assoc_get f "name" with
  | none => rfl
  | some w =>
    cases w with
    | vstr nm =>
      by_cases hc : nm = ""
      · simp [hc]
      · simp only [ne_eq, hc, not_false_iff, if_true]
        exact assoc_get_set_ne message _ (fun he => hk he.symm)
    | vnull => rfl
    | vbool b => rfl
    | vint n => rfl
    | vlist l => rfl
    | vdict d => rfl

theorem btr_name_of_get (message f : PyDict) (hm : assoc_get message "name" = none) :
    assoc_get (btr_name_of message f) "name" =
      (match assoc_get f "name" with
       | some (.vstr nm) => if nm = "" then none else some (.vstr nm)
       | _ => none) := by
  unfold btr_name_of
  cases hget2 : assoc_get f "name" with
  | none => exact hm
  | some w =>
    cases w with
    | vstr nm =>
      by_cases hc : nm = ""
      · simp [hc, hm]
      · simp [hc, assoc_get_set_self]
    | vnull => exact hm
    | vbool b => exact hm
    | vint n => exact hm
    | vlist l => exact hm
    | vdict d => exact hm

theorem btr_with_name_preserves (message call : PyDict) (k : String)
    (hk : k ≠ "name") :
    assoc_get (btr_with_name message call) k = assoc_get message k := by
  unfold btr_with_name
  cases hget : assoc_get call "function" with
  | none => rfl
  | some v =>
    cases v with
    | vdict f => exact btr_name_of_preserves message f k hk
    | vnull => rfl
    | vbool b => rfl
    | vint n => rfl
    | vstr s => rfl
    | vlist l => rfl

theorem btr_with_name_get (message call : PyDict)
    (hm : assoc_get message "name" = none) :
    assoc_get (btr_with_name message call) "name" =
      (match assoc_get call "function" with
       | some (.vdict f) =>
         (match assoc_get f "name" with
          | some (.vstr nm) => if nm = "" then none else some (.vstr nm)
          | _ => none)
       | _ => none) := by
  unfold btr_with_name
  cases hget : assoc_get call "function" with
  | none => exact hm
  | some v =>
    cases v with
    | vdict f => exact btr_name_of_get message f hm
    | vnull => exact hm
    | vbool b => exact hm
    | vint n => exact hm
    | vstr s => exact hm
    | vlist l => exact hm

theorem build_tool_result_message_out (result : Val) (pending_calls : List PyDict)
    (index : Nat) (h : pending_calls[index]? = none) :
    build_tool_result_message result pending_calls index = btr_base result := by
  unfold build_tool_result_message
  rw [h]

theorem build_tool_result_message_in (result : Val) (pending_calls : List PyDict)
    (index : Nat) (call : PyDict) (h : pending_calls[index]? = some call) :
    build_tool_result_message result pending_calls index =
      btr_with_name (btr_with_id (btr_base result) call) call := by
  unfold build_tool_result_message
  rw [h]

/-! ## Registry lemmas -/

theorem model_tools_go_error (l : List ToolDescriptor) :
    ∀ seen : List String,
      ((∃ x ∈ l.map (fun d => to_model_name d.name), x ∈ seen) ∨
        ¬ (l.map (fun d => to_model_name d.name)).Nodup) →
      ∃ msg, model_tools_go seen l = .error msg := by
  induction l with
  | nil =>
    intro seen h
    rcases h with ⟨x, hx, -⟩ | h
    · exact absurd hx (by simp)
    · exact absurd List.nodup_nil h
  | cons d rest ih =>
    intro seen h
    unfold model_tools_go
    by_cases hm : to_model_name d.name ∈ seen
    · rw [if_pos hm]
      exact ⟨_, rfl⟩
    · rw [if_neg hm]
      have hrec : ∃ msg,
          model_tools_go (to_model_name d.name :: seen) rest = .error msg := by
        apply ih
        rcases h with ⟨x, hx, hxs⟩ | hnd
        · simp only [List.map_cons, List.mem_cons] at hx
          rcases hx with rfl | hx
          · exact absurd hxs hm
          · exact Or.inl ⟨x, hx, List.mem_cons_of_mem _ hxs⟩
        · simp only [List.map_cons, List.nodup_cons] at hnd
          push_neg at hnd
          by_cases hin : to_model_name d.name ∈ rest.map (fun d => to_model_name d.name)
          · exact Or.inl ⟨to_model_name d.name, hin, List.mem_cons_self _ _⟩
          · exact Or.inr (hnd hin)
      obtain ⟨msg, hmsg⟩ := hrec
      rw [hmsg]
      exact ⟨msg, rfl⟩

/-! ## Claims -/

/-- C1 (code_bug evidence): the tape compiler is not free of side effects
on its input.  On an entry holding one call with mapping-valued
`arguments`, compilation rewrites the entry's nested `function.arguments`
in place (through the `function` mapping shared by `dict(item)` and the
stored item), so the post-compilation entry differs from the input
entry.  This contradicts the specified purity of `compile`. -/
theorem compile_mutates_tool_call_entry :
    entry_after_compile
      ⟨"tool_call",
        [("calls", Val.vlist [Val.vdict
          [("id", Val.vstr "1"),
           ("function", Val.vdict
             [("name", Val.vstr "f"),
              ("arguments", Val.vdict [("q", Val.vstr "x")])])]])]⟩ ≠
      ⟨"tool_call",
        [("calls", Val.vlist [Val.vdict
          [("id", Val.vstr "1"),
           ("function", Val.vdict
             [("name", Val.vstr "f"),
              ("arguments", Val.vdict [("q", Val.vstr "x")])])]])]⟩ := by
  intro h
  have h2 : entry_after_compile
      ⟨"tool_call",
        [("calls", Val.vlist [Val.vdict
          [("id", Val.vstr "1"),
           ("function", Val.vdict
             [("name", Val.vstr "f"),
              ("arguments", Val.vdict [("q", Val.vstr "x")])])]])]⟩ =
      ⟨"tool_call",
        [("calls", Val.vlist [Val.vdict
          [("id", Val.vstr "1"),
           ("function", Val.vdict
             [("name", Val.vstr "f"),
              ("arguments",
                Val.vstr (json_dumps (Val.vdict [("q", Val.vstr "x")])))])]])]⟩ := rfl
  rw [h2] at h
  simp at h

/-- C2 counterexample: a `tool_result` entry whose `results` value is not
a list does not leave the pending-calls buffer untouched — the buffer is
cleared by the unconditional reset after every `tool_result` entry. -/
theorem tool_result_nonlist_clears_pending_cex :
    ¬ ((select_step ([], [[("id", Val.vstr "1")]])
        ⟨"tool_result", [("results", Val.vstr "oops")]⟩).2 =
      [[("id", Val.vstr "1")]]) := by
  intro h
  have h2 : (select_step ([], [[("id", Val.vstr "1")]])
      ⟨"tool_result", [("results", Val.vstr "oops")]⟩).2 = [] := rfl
  rw [h2] at h
  exact List.noConfusion h

/-- C2 (amended): a `tool_result` entry whose `results` value is not a
list emits no messages, but the pending-calls buffer is cleared all the
same, so a later `tool_result` entry does not pair with the calls of the
preceding `tool_call` entry. -/
theorem tool_result_nonlist_ignored_but_clears_pending
    (state : List PyDict × List PyDict) (entry : TapeEntry)
    (hk : entry.kind = "tool_result")
    (h : ∀ rs, assoc_get entry.payload "results" ≠ some (.vlist rs)) :
    select_step state entry = (state.1, []) := by
  rw [select_step_tool_result state entry hk,
    append_tool_result_entry_other state.1 state.2 entry.payload h]

/-- Witness for the amended C2 at a concrete input. -/
theorem tool_result_nonlist_ignored_but_clears_pending_witness :
    select_step ([[("role", Val.vstr "user")]], [[("id", Val.vstr "1")]])
      ⟨"tool_result", [("results", Val.vstr "oops")]⟩ =
      ([[("role", Val.vstr "user")]], []) := by
  refine tool_result_nonlist_ignored_but_clears_pending _ _ rfl ?_
  intro rs hc
  rw [show assoc_get [("results", Val.vstr "oops")] "results" = some (Val.vstr "oops")
    from rfl] at hc
  simp at hc

/-- C3 counterexample: the compiler emits a tool-call item whose
sanitized `function.arguments` is `"[1]"` — syntactically valid JSON, but
not a JSON-encoded *object* string, refuting the claim as stated. -/
theorem emitted_arguments_not_object_cex :
    select_messages
      [⟨"tool_call", [("calls", Val.vlist [Val.vdict
        [("function", Val.vdict [("arguments", Val.vstr "[1]")])]])]⟩] =
      [[("role", Val.vstr "assistant"), ("content", Val.vstr ""),
        ("tool_calls", Val.vlist [Val.vdict
          [("function", Val.vdict [("arguments", Val.vstr "[1]")])]])]] ∧
    json_valid "[1]" = true ∧ json_valid_object "[1]" = false :=
  ⟨rfl, rfl, rfl⟩

/-- C3 (amended): every tool-call item the compiler collects for a
`tool_call` entry — the pending buffer, whose items are exactly those
embedded in the emitted assistant message — has syntactically valid JSON
in `function.arguments` whenever that field holds a string (not
necessarily an object). -/
theorem emitted_arguments_valid_json (state : List PyDict × List PyDict)
    (entry : TapeEntry) (hk : entry.kind = "tool_call") (item : PyDict)
    (hmem : item ∈ (select_step state entry).2)
    (f : PyDict) (s : String)
    (hf : assoc_get item "function" = some (.vdict f))
    (hs : assoc_get f "arguments" = some (.vstr s)) :
    json_valid s = true := by
  rw [select_step_tool_call state entry hk] at hmem
  have h2 : (append_tool_call_entry state.1 entry.payload).2 =
      normalize_tool_calls (assoc_get entry.payload "calls") := rfl
  rw [h2] at hmem
  exact normalize_tool_calls_valid _ item hmem f s hf hs

/-- Witness for the amended C3: a call stored with `arguments: null` is
repaired to the valid JSON string of the empty object. -/
theorem emitted_arguments_valid_json_witness : json_valid "\x7b\x7d" = true := by
  refine emitted_arguments_valid_json ([], [])
    ⟨"tool_call", [("calls", Val.vlist [Val.vdict
      [("function", Val.vdict [("arguments", Val.vnull)])]])]⟩ rfl
    [("function", Val.vdict [("arguments", Val.vstr "\x7b\x7d")])] ?_
    [("arguments", Val.vstr "\x7b\x7d")] "\x7b\x7d" rfl rfl
  rw [show (select_step ([], [])
      ⟨"tool_call", [("calls", Val.vlist [Val.vdict
        [("function", Val.vdict [("arguments", Val.vnull)])]])]⟩).2 =
      [[("function", Val.vdict [("arguments", Val.vstr "\x7b\x7d")])]] from rfl]
  exact List.mem_singleton_self _

/-- C4: a `tool_result` entry whose `results` is a list makes the
compiler emit exactly one `role: tool` message per result, in order; the
message at position `i` carries the `tool_call_id` (from `id`, only when
a non-empty string) and `name` (from `function.name`, only when present
and non-empty) of the `i`-th pending sanitized call when `i` is within
the buffer, and carries neither field beyond the buffer's length. -/
theorem tool_result_messages_pairing (state : List PyDict × List PyDict)
    (entry : TapeEntry) (hk : entry.kind = "tool_result") (rs : List Val)
    (hres : assoc_get entry.payload "results" = some (.vlist rs)) :
    (select_step state entry).1 = state.1 ++ append_results state.2 0 rs ∧
    (append_results state.2 0 rs).length = rs.length ∧
    ∀ i (hi : i < rs.length) (hi2 : i < (append_results state.2 0 rs).length),
      assoc_get ((append_results state.2 0 rs).get ⟨i, hi2⟩) "role" =
        some (.vstr "tool") ∧
      assoc_get ((append_results state.2 0 rs).get ⟨i, hi2⟩) "content" =
        some (.vstr (render_tool_result (rs.get ⟨i, hi⟩))) ∧
      (∀ hp : i < state.2.length,
        assoc_get ((append_results state.2 0 rs).get ⟨i, hi2⟩) "tool_call_id" =
          (match assoc_get (state.2.get ⟨i, hp⟩) "id" with
           | some (.vstr cid) => if cid = "" then none else some (.vstr cid)
           | _ => none) ∧
        assoc_get ((append_results state.2 0 rs).get ⟨i, hi2⟩) "name" =
          (match assoc_get (state.2.get ⟨i, hp⟩) "function" with
           | some (.vdict fn) =>
             (match assoc_get fn "name" with
              | some (.vstr nm) => if nm = "" then none else some (.vstr nm)
              | _ => none)
           | _ => none)) ∧
      (state.2.length ≤ i →
        assoc_get ((append_results state.2 0 rs).get ⟨i, hi2⟩) "tool_call_id" = none ∧
        assoc_get ((append_results state.2 0 rs).get ⟨i, hi2⟩) "name" = none) := by
  refine ⟨?_, append_results_length state.2 0 rs, ?_⟩
  · rw [select_step_tool_result state entry hk,
      append_tool_result_entry_list state.1 state.2 entry.payload rs hres]
  · intro i hi hi2
    have hmsg : (append_results state.2 0 rs).get ⟨i, hi2⟩ =
        build_tool_result_message (rs.get ⟨i, hi⟩) state.2 i := by
      rw [append_results_get state.2 0 rs i hi hi2]
      congr 1
      omega
    rw [hmsg]
    by_cases hp : i < state.2.length
    · have hsome : state.2[i]? = some (state.2.get ⟨i, hp⟩) := by
        rw [List.getElem?_eq_getElem hp]
        simp [List.get_eq_getElem]
      rw [build_tool_result_message_in _ _ _ _ hsome]
      have hbase := btr_base_fields (rs.get ⟨i, hi⟩)
      refine ⟨?_, ?_, ?_, ?_⟩
      · rw [btr_with_name_preserves _ _ _ (by decide),
          btr_with_id_preserves _ _ _ (by decide)]
        exact hbase.1
      · rw [btr_with_name_preserves _ _ _ (by decide),
          btr_with_id_preserves _ _ _ (by decide)]
        exact hbase.2.1
      · intro hp'
        constructor
        · rw [btr_with_name_preserves _ _ _ (by decide)]
          exact btr_with_id_get _ _ hbase.2.2.1
        · rw [btr_with_name_get _ _ ?hnone]
          case hnone =>
            rw [btr_with_id_preserves _ _ _ (by decide)]
            exact hbase.2.2.2
      · intro hout
        exact absurd hp (by omega)
    · have hnone : state.2[i]? = none := List.getElem?_eq_none (by omega)
      rw [build_tool_result_message_out _ _ _ hnone]
      have hbase := btr_base_fields (rs.get ⟨i, hi⟩)
      exact ⟨hbase.1, hbase.2.1, fun hp' => absurd hp' hp,
        fun _ => ⟨hbase.2.2.1, hbase.2.2.2⟩⟩

/-- Witness for C4 at the spec's own example: one pending call with id
`"1"` and name `"search"`, one string result `"ok"`. -/
theorem tool_result_messages_pairing_witness :
    (select_step ([],
        [[("id", Val.vstr "1"),
          ("function", Val.vdict [("name", Val.vstr "search")])]])
      ⟨"tool_result", [("results", Val.vlist [Val.vstr "ok"])]⟩).1 =
      [] ++ append_results
        [[("id", Val.vstr "1"),
          ("function", Val.vdict [("name", Val.vstr "search")])]] 0 [Val.vstr "ok"] ∧
    assoc_get ((append_results
        [[("id", Val.vstr "1"),
          ("function", Val.vdict [("name", Val.vstr "search")])]] 0
        [Val.vstr "ok"]).get ⟨0, by decide⟩) "role" = some (Val.vstr "tool") := by
  have h := tool_result_messages_pairing ([],
      [[("id", Val.vstr "1"),
        ("function", Val.vdict [("name", Val.vstr "search")])]])
    ⟨"tool_result", [("results", Val.vlist [Val.vstr "ok"])]⟩ rfl [Val.vstr "ok"] rfl
  exact ⟨h.1, (h.2.2 0 (by decide) (by decide)).1⟩

/-- C5 counterexample: for a context-requiring tool, the instrumented
handler does *not* exclude `context` from the keyword arguments it
forwards — `func(*args, **kwargs)` receives the original `kwargs`, in
which the `context` key is still present. -/
theorem handler_forwards_context_cex :
    ¬ (assoc_get (handler_data_flow true none
        [("context", Val.vint 7), ("x", Val.vint 1)]).forwarded_kwargs "context" =
      none) := by
  intro h
  have h2 : assoc_get (handler_data_flow true none
      [("context", Val.vint 7), ("x", Val.vint 1)]).forwarded_kwargs "context" =
      some (Val.vint 7) := rfl
  rw [h2] at h
  exact Option.noConfusion h

/-- C5 (amended): the handler excludes the `context` key only from the
keyword-argument view it logs (`call_kwargs`); the keyword arguments
forwarded to the wrapped function are exactly those the handler received,
context included. -/
theorem handler_context_excluded_only_from_log (requires_context : Bool)
    (kwargs : PyDict) :
    (handler_data_flow requires_context none kwargs).forwarded_kwargs = kwargs ∧
    ((handler_data_flow requires_context none kwargs).logged_kwargs.all
      (fun kv => kv.1 != "context")) = true := by
  refine ⟨rfl, ?_⟩
  show ((kwargs.filter (fun kv => kv.1 != "context")).all
    (fun kv => kv.1 != "context")) = true
  rw [List.all_eq_true]
  intro kv hkv
  exact (List.mem_filter.mp hkv).2

/-- C6 counterexample: with allow-set `{"FILE_READ"}`, registering
`file_read` is skipped even though the name appears in the allow-set
under case-insensitive comparison — the code casefolds only the
candidate name, never the stored set elements. -/
theorem allow_set_not_case_insensitive_cex :
    register_tool ⟨[], some ["FILE_READ"]⟩ "file_read" "d" "t" false "builtin" =
      (⟨[], some ["FILE_READ"]⟩, none) ∧
    casefold "FILE_READ" = casefold "file_read" := ⟨rfl, rfl⟩

/-- C6 (amended): with an allow-set configured, registration is skipped
(sentinel returned, registry unchanged) if and only if neither the
casefolded raw name nor the casefolded derived model name is literally
an element of the allow-set; set elements are compared verbatim, so the
comparison is case-insensitive only on the candidate side. -/
theorem register_skip_iff (r : ToolRegistry) (A : List String)
    (hA : r.allowed_tools = some A) (name short_description detail : String)
    (context : Bool) (source : String) :
    register_tool r name short_description detail context source = (r, none) ↔
      (¬ casefold name ∈ A ∧ ¬ casefold (to_model_name name) ∈ A) := by
  have hskip : allow_skip r.allowed_tools name =
      (!(decide (casefold name ∈ A)) && !(decide (casefold (to_model_name name) ∈ A))) := by
    unfold allow_skip
    rw [hA]
  unfold register_tool
  by_cases hs : allow_skip r.allowed_tools name = true
  · rw [if_pos hs]
    rw [hskip] at hs
    simp only [Bool.and_eq_true, Bool.not_eq_true', decide_eq_false_iff_not] at hs
    exact ⟨fun _ => hs, fun _ => rfl⟩
  · rw [if_neg hs]
    rw [hskip] at hs
    simp only [Bool.and_eq_true, Bool.not_eq_true', decide_eq_false_iff_not,
      not_and_or, not_not] at hs
    constructor
    · intro he
      exact absurd (congrArg Prod.snd he) (by simp)
    · intro hmem
      rcases hs with h | h
      · exact absurd h hmem.1
      · exact absurd h hmem.2

/-- Witness for the amended C6: the spec's own example — with allow-set
`{"file_read"}`, `file.read` registers (derived model name matches) and
`file.write` is skipped. -/
theorem register_skip_iff_witness :
    (register_tool ⟨[], some ["file_read"]⟩ "file.read" "d" "t" false "builtin" =
        (⟨[], some ["file_read"]⟩, none) ↔
      (¬ casefold "file.read" ∈ ["file_read"] ∧
        ¬ casefold (to_model_name "file.read") ∈ ["file_read"])) ∧
    (register_tool ⟨[], some ["file_read"]⟩ "file.read" "d" "t" false "builtin").2 ≠
      none ∧
    register_tool ⟨[], some ["file_read"]⟩ "file.write" "d" "t" false "builtin" =
      (⟨[], some ["file_read"]⟩, none) := by
  refine ⟨register_skip_iff _ ["file_read"] rfl "file.read" "d" "t" false "builtin",
    ?_, rfl⟩
  intro h
  have h2 : (register_tool ⟨[], some ["file_read"]⟩ "file.read" "d" "t" false
      "builtin").2 =
      some { name := "file.read", short_description := "d", detail := "t",
             tool := { name := "file.read", description := "d", context := false },
             source := "builtin" } := rfl
  rw [h2] at h
  exact Option.noConfusion h

/-- C7: `model_tools` fails with the duplicate-name configuration error —
before producing any tool list — whenever two registered descriptors with
distinct storage names share a model name after `.`-to-`_` conversion. -/
theorem model_tools_collision (r : ToolRegistry) (d1 d2 : ToolDescriptor)
    (h1 : d1 ∈ r.tools.map Prod.snd) (h2 : d2 ∈ r.tools.map Prod.snd)
    (hne : d1.name ≠ d2.name)
    (hmn : to_model_name d1.name = to_model_name d2.name) :
    ∃ msg, model_tools r = .error msg := by
  unfold model_tools
  apply model_tools_go_error
  right
  intro hnd
  have hperm : List.Perm
      (List.insertionSort (fun a b : ToolDescriptor => a.name ≤ b.name)
        (r.tools.map Prod.snd))
      (r.tools.map Prod.snd) :=
    List.perm_insertionSort _ _
  have hd1 : d1 ∈ descriptors r := by
    unfold descriptors
    exact hperm.mem_iff.mpr h1
  have hd2 : d2 ∈ descriptors r := by
    unfold descriptors
    exact hperm.mem_iff.mpr h2
  have heq := List.inj_on_of_nodup_map hnd hd1 hd2 hmn
  exact hne (congrArg ToolDescriptor.name heq)

/-- Witness for C7 at the spec's own example: descriptors `a.b` and
`a_b` coexist and `model_tools` raises the configuration error. -/
theorem model_tools_collision_witness :
    ∃ msg, model_tools
      ⟨[("a.b", { name := "a.b", short_description := "d", detail := "t",
                  tool := { name := "a.b", description := "d", context := false },
                  source := "builtin" }),
        ("a_b", { name := "a_b", short_description := "d", detail := "t",
                  tool := { name := "a_b", description := "d", context := false },
                  source := "builtin" })], none⟩ = .error msg := by
  refine model_tools_collision _
    { name := "a.b", short_description := "d", detail := "t",
      tool := { name := "a.b", description := "d", context := false },
      source := "builtin" }
    { name := "a_b", short_description := "d", detail := "t",
      tool := { name := "a_b", description := "d", context := false },
      source := "builtin" } ?_ ?_ ?_ rfl
  · exact List.mem_cons_self _ _
  · exact List.mem_cons_of_mem _ (List.mem_cons_self _ _)
  · intro h
    simp at h

/-- C8: tool-call sanitization is idempotent — sanitizing a call item
twice yields the same item (in particular the same
`function.arguments` string) as sanitizing it once. -/
theorem sanitize_idempotent (call : PyDict) :
    sanitize_tool_call (sanitize_tool_call call) = sanitize_tool_call call :=
  sanitize_tool_call_idem call

/-- C9: `to_model_name` is total and deterministic (a Lean function),
replaces every `.` by `_` (character-wise), and is idempotent. -/
theorem to_model_name_spec :
    (∀ x : String, to_model_name (to_model_name x) = to_model_name x) ∧
    (∀ x : String,
      (to_model_name x).data = x.data.map (fun c => if c = '.' then '_' else c)) := by
  have hrep : ∀ l : List Char,
      replace_char '.' '_' l = l.map (fun c => if c = '.' then '_' else c) := by
    intro l
    induction l with
    | nil => rfl
    | cons c cs ih => simp [replace_char, ih]
  have hf : ∀ c : Char,
      (if (if c = '.' then '_' else c) = '.' then '_' else (if c = '.' then '_' else c)) =
        (if c = '.' then '_' else c) := by
    intro c
    by_cases hc : c = '.'
    · subst hc
      rw [if_pos rfl, if_neg (by decide : ¬ ('_' : Char) = '.')]
    · rw [if_neg hc, if_neg hc]
  have hidem : ∀ l : List Char,
      replace_char '.' '_' (replace_char '.' '_' l) = replace_char '.' '_' l := by
    intro l
    rw [hrep, hrep, List.map_map]
    exact List.map_congr_left (fun c _ => hf c)
  constructor
  · intro x
    show String.mk (replace_char '.' '_' (replace_char '.' '_' x.data)) =
      String.mk (replace_char '.' '_' x.data)
    exact congrArg String.mk (hidem x.data)
  · intro x
    exact hrep x.data

/-- C10: for a context-requiring tool, `execute` assigns the supplied
context into the caller's `kwargs` dictionary itself under the key
`"context"`, and the mutation is what the caller observes after the
lookup-and-dispatch step; for a tool not requiring context, the caller's
dictionary is left unchanged. -/
theorem execute_inserts_context_into_kwargs (r : ToolRegistry) (name : String)
    (kwargs : PyDict) (context : Val) (descriptor : ToolDescriptor)
    (hget : registry_get r name = some descriptor) :
    (descriptor.tool.context = true →
      execute_kwargs_after r name kwargs context =
        .ok (assoc_set kwargs "context" context) ∧
      assoc_get (assoc_set kwargs "context" context) "context" = some context) ∧
    (descriptor.tool.context = false →
      execute_kwargs_after r name kwargs context = .ok kwargs) := by
  have h0 : execute_kwargs_after r name kwargs context =
      .ok (if descriptor.tool.context then assoc_set kwargs "context" context
           else kwargs) := by
    unfold execute_kwargs_after
    rw [hget]
  rw [h0]
  constructor
  · intro hc
    rw [hc]
    exact ⟨by simp, assoc_get_set_self kwargs "context" context⟩
  · intro hc
    rw [hc]
    simp

/-- Witness for C10: a context-requiring tool receives the context key in
the caller's dictionary; a plain tool leaves it untouched. -/
theorem execute_inserts_context_into_kwargs_witness :
    execute_kwargs_after
      ⟨[("t", { name := "t", short_description := "d", detail := "t",
                tool := { name := "t", description := "d", context := true },
                source := "builtin" })], none⟩ "t"
      [("x", Val.vint 1)] (Val.vstr "ctx") =
      .ok (assoc_set [("x", Val.vint 1)] "context" (Val.vstr "ctx")) ∧
    assoc_get (assoc_set [("x", Val.vint 1)] "context" (Val.vstr "ctx")) "context" =
      some (Val.vstr "ctx") :=
  (execute_inserts_context_into_kwargs
    ⟨[("t", { name := "t", short_description := "d", detail := "t",
              tool := { name := "t", description := "d", context := true },
              source := "builtin" })], none⟩ "t" [("x", Val.vint 1)] (Val.vstr "ctx")
    { name := "t", short_description := "d", detail := "t",
      tool := { name := "t", description := "d", context := true },
      source := "builtin" } rfl).1 rfl
